import Mathlib

/-!
Verification development for the LC2K mock debugger runtime
(src/src/mockRuntime.ts).  The runtime is embedded shallowly: JavaScript
numbers that actually occur in the program (integers and NaN) are modelled
by the type JNum, the variables map of the MockRuntime class by an
association of keys to values, the regular expressions used for decoding
by a small backtracking matcher that reproduces the greedy semantics of
the JavaScript engine on the concrete patterns of the source, and the
event emitter by a list of events appended in emission order (the source
dispatches them through setTimeout, which preserves order).
-/

/-- A JavaScript number as it occurs in the runtime: an integer or NaN.
All numeric values produced by the runtime (register contents, memory
cells, line indices, parsed operands) are integers or NaN. -/
inductive JNum where
  | int (n : Int)
  | nan
  deriving DecidableEq, Repr

/-- JavaScript addition on runtime numbers: NaN propagates. -/
def jadd : JNum → JNum → JNum
  | .int a, .int b => .int (a + b)
  | _, _ => .nan

/-- JavaScript subtraction of an integer constant: NaN propagates. -/
def jsub : JNum → Int → JNum
  | .int a, b => .int (a - b)
  | .nan, _ => .nan

/-- JavaScript greater-than against an integer constant; false on NaN. -/
def jgt : JNum → Int → Bool
  | .int a, b => b < a
  | .nan, _ => false

/-- JavaScript less-than against an integer constant; false on NaN. -/
def jlt : JNum → Int → Bool
  | .int a, b => a < b
  | .nan, _ => false

/-- The unsigned 32-bit residue of an integer, in the range 0 .. 2^32-1. -/
def toUInt32Z (n : Int) : Int := n % 4294967296

/-- ToInt32 as performed by the JavaScript bitwise operators: NaN maps to
0 and an integer to its signed 32-bit representative. -/
def toInt32 : JNum → Int
  | .nan => 0
  | .int n =>
      let u := toUInt32Z n
      if 2147483648 ≤ u then u - 4294967296 else u

/-- Bitwise or of two signed 32-bit integers, as the JavaScript operator
computes it on values already reduced by ToInt32. -/
def or32 (a b : Int) : Int :=
  let ua := (toUInt32Z a).toNat
  let ub := (toUInt32Z b).toNat
  let u : Int := (Nat.lor ua ub : Nat)
  if 2147483648 ≤ u then u - 4294967296 else u

/-- Bitwise not of a signed 32-bit integer (two's complement). -/
def not32 (a : Int) : Int := -a - 1

/-- Whitespace as matched by the backslash-s class of the source regexes,
restricted to the characters that can occur in a decoded source line. -/
def isJsWs (c : Char) : Bool :=
  c = ' ' ∨ c = '\t' ∨ c = '\r' ∨ c = Char.ofNat 11 ∨ c = Char.ofNat 12

/-- Decimal digit test. -/
def isDigitC (c : Char) : Bool := '0' ≤ c ∧ c ≤ '9'

/-- Hexadecimal digit test. -/
def isHexC (c : Char) : Bool :=
  isDigitC c ∨ ('a' ≤ c ∧ c ≤ 'f') ∨ ('A' ≤ c ∧ c ≤ 'F')

/-- ASCII letter test (the word tokenizer of getWords matches runs of
letters case-insensitively). -/
def isAlphaC (c : Char) : Bool :=
  ('a' ≤ c ∧ c ≤ 'z') ∨ ('A' ≤ c ∧ c ≤ 'Z')

/-- Value of a decimal digit character. -/
def digitVal (c : Char) : Nat := c.toNat - '0'.toNat

/-- Value of a hexadecimal digit character. -/
def hexVal (c : Char) : Nat :=
  if isDigitC c then c.toNat - '0'.toNat
  else if 'a' ≤ c ∧ c ≤ 'f' then c.toNat - 'a'.toNat + 10
  else c.toNat - 'A'.toNat + 10

/-- Accumulate a decimal digit run. -/
def decRun : List Char → Nat → Nat × List Char
  | c :: cs, acc =>
      if isDigitC c then decRun cs (acc * 10 + digitVal c) else (acc, c :: cs)
  | [], acc => (acc, [])

/-- Accumulate a hexadecimal digit run. -/
def hexRun : List Char → Nat → Nat × List Char
  | c :: cs, acc =>
      if isHexC c then hexRun cs (acc * 16 + hexVal c) else (acc, c :: cs)
  | [], acc => (acc, [])

/-- Drop leading JavaScript whitespace. -/
def dropWs (cs : List Char) : List Char := cs.dropWhile (fun c => isJsWs c)

/-- The parseInt function of JavaScript on the strings the runtime feeds
it: leading whitespace is skipped, an optional sign read, then a maximal
hexadecimal (after 0x or 0X) or decimal digit run; none models NaN (no
digits at all). -/
def jsParseInt (s : String) : Option Int :=
  let cs := dropWs s.data
  let (sgn, cs) : Int × List Char :=
    match cs with
    | '-' :: rest => (-1, rest)
    | '+' :: rest => (1, rest)
    | _ => (1, cs)
  match cs with
  | '0' :: x :: rest =>
      if (x = 'x' ∨ x = 'X') then
        match rest with
        | c :: _ => if isHexC c then some (sgn * (hexRun rest 0).1) else none
        | [] => none
      else
        some (sgn * (decRun ('0' :: x :: rest) 0).1)
  | c :: _ => if isDigitC c then some (sgn * (decRun cs 0).1) else none
  | [] => none

/-- Does the whole character list form the body of a decimal numeric
literal (digits, optional fraction, optional exponent) as accepted by the
JavaScript Number conversion?  The sign has already been consumed. -/
def decBodyOk (cs : List Char) : Bool :=
  let (intDigits, cs1) := (cs.span (fun c => isDigitC c))
  let (fracPart, cs2) : List Char × List Char :=
    match cs1 with
    | '.' :: rest => (rest.takeWhile (fun c => isDigitC c), rest.dropWhile (fun c => isDigitC c))
    | _ => ([], cs1)
  if intDigits.isEmpty ∧ fracPart.isEmpty then false
  else
    match cs2 with
    | [] => true
    | e :: rest =>
        if (e = 'e' ∨ e = 'E') then
          let rest2 := match rest with
            | '+' :: r => r
            | '-' :: r => r
            | r => r
          (!rest2.isEmpty) ∧ rest2.all (fun c => isDigitC c)
        else false

/-- Is Number(s) a non-NaN value, for the strings the runtime tests with
isNaN(Number(x))?  Empty and all-whitespace strings convert to 0, the
Infinity forms are numbers, hexadecimal, octal and binary literals are
unsigned, and decimal literals may carry a sign, fraction and exponent. -/
def jsIsNumber (s : String) : Bool :=
  let cs := dropWs (dropWs s.data.reverse).reverse
  match cs with
  | [] => true
  | _ =>
    let body := match cs with
      | '-' :: rest => rest
      | '+' :: rest => rest
      | rest => rest
    let signed := match cs with
      | '-' :: _ => true
      | '+' :: _ => true
      | _ => false
    if body = "Infinity".data then true
    else
      match body with
      | '0' :: x :: rest =>
          if (x = 'x' ∨ x = 'X') then
            ((!signed) ∧ (!rest.isEmpty) ∧ rest.all (fun c => isHexC c))
          else if (x = 'b' ∨ x = 'B') then
            ((!signed) ∧ (!rest.isEmpty) ∧ rest.all (fun c => c = '0' ∨ c = '1'))
          else if (x = 'o' ∨ x = 'O') then
            ((!signed) ∧ (!rest.isEmpty) ∧ rest.all (fun c => '0' ≤ c ∧ c ≤ '7'))
          else decBodyOk body
      | _ => decBodyOk body

/-!  A small backtracking matcher reproducing the JavaScript regular
expressions of the source on their concrete patterns.  Each pattern is a
sequence of the atoms below; greedy alternatives are tried longest first
exactly as the JavaScript engine does, with backtracking across atoms. -/

/-- One atom of a source pattern. -/
inductive Pat where
  /-- a capturing group of zero or more non-whitespace characters -/
  | tokStar
  /-- a capturing group of one or more non-whitespace characters -/
  | tokPlus
  /-- one or more whitespace characters, not captured -/
  | wsPlus
  /-- exactly one whitespace character, not captured -/
  | wsOne
  /-- an optional run of whitespace, not captured -/
  | optWs
  /-- a capturing alternation of literal words, tried in order -/
  | litAlt (alts : List String)
  /-- a capturing group matching the whole remainder of the line -/
  | dotStarOpt
  deriving Repr

/-- Candidate splits for a greedy non-whitespace star: the maximal run
first, then each shorter prefix. -/
def tokCands (cs : List Char) : List (List Char × List Char) :=
  let run := cs.takeWhile (fun c => !isJsWs c)
  let rest := cs.drop run.length
  (List.range (run.length + 1)).reverse.map
    (fun k => (run.take k, run.drop k ++ rest))

/-- Candidate splits for a greedy whitespace plus: the maximal run first,
down to a single character; empty when no whitespace is next. -/
def wsCands (cs : List Char) : List (List Char) :=
  let run := cs.takeWhile (fun c => isJsWs c)
  let rest := cs.drop run.length
  (List.range run.length).reverse.map (fun k => run.drop (k + 1) ++ rest)

/-- Match a sequence of atoms against a line, returning the captured
groups of the first match in the backtracking order of the JavaScript
engine.  The pattern list shrinks at every recursive call. -/
def matchPats : List Pat → List Char → Option (List String)
  | [], _ => some []
  | .tokStar :: ps, cs =>
      (tokCands cs).findSome? (fun pr =>
        (matchPats ps pr.2).map (fun caps => String.mk pr.1 :: caps))
  | .tokPlus :: ps, cs =>
      ((tokCands cs).filter (fun pr => !pr.1.isEmpty)).findSome? (fun pr =>
        (matchPats ps pr.2).map (fun caps => String.mk pr.1 :: caps))
  | .wsPlus :: ps, cs =>
      (wsCands cs).findSome? (fun rest => matchPats ps rest)
  | .wsOne :: ps, cs =>
      match cs with
      | c :: rest => if isJsWs c then matchPats ps rest else none
      | [] => none
  | .optWs :: ps, cs =>
      ((wsCands cs).findSome? (fun rest => matchPats ps rest)).orElse
        (fun _ => matchPats ps cs)
  | .litAlt alts :: ps, cs =>
      alts.findSome? (fun a =>
        if a.data.isPrefixOf cs then
          (matchPats ps (cs.drop a.length)).map (fun caps => a :: caps)
        else none)
  | .dotStarOpt :: ps, cs =>
      (matchPats ps []).map (fun caps => String.mk cs :: caps)

/-- The concrete patterns of the source regexes. -/
def rInstPats : List Pat :=
  [.tokStar, .wsPlus, .litAlt ["add", "nor", "lw", "sw", "beq"], .wsPlus,
   .tokStar, .wsPlus, .tokStar, .wsPlus, .tokStar, .optWs, .dotStarOpt]

/-- Pattern of the J type instruction regex. -/
def jInstPats : List Pat :=
  [.tokStar, .wsPlus, .litAlt ["jalr"], .wsPlus, .tokPlus, .wsPlus, .tokPlus,
   .optWs, .dotStarOpt]

/-- Pattern of the O type instruction regex. -/
def oInstPats : List Pat :=
  [.tokStar, .wsPlus, .litAlt ["halt", "noop"], .optWs, .dotStarOpt]

/-- Pattern of the .fill directive regex (used both by the loader and by
the decoder of executeLine). -/
def fillPats : List Pat :=
  [.tokStar, .wsPlus, .litAlt [".fill"], .wsPlus, .tokPlus, .optWs, .dotStarOpt]

/-- Captures of the R type regex. -/
structure RCaps where
  label : String
  op : String
  g3 : String
  g4 : String
  g5 : String
  comment : String
  deriving DecidableEq, Repr

/-- Match a line against the R type instruction regex. -/
def matchR (line : String) : Option RCaps :=
  match matchPats rInstPats line.data with
  | some [a, b, c, d, e, f] => some ⟨a, b, c, d, e, f⟩
  | _ => none

/-- Captures of the J type regex. -/
structure JCaps where
  label : String
  op : String
  g3 : String
  g4 : String
  comment : String
  deriving DecidableEq, Repr

/-- Match a line against the J type instruction regex. -/
def matchJ (line : String) : Option JCaps :=
  match matchPats jInstPats line.data with
  | some [a, b, c, d, e] => some ⟨a, b, c, d, e⟩
  | _ => none

/-- Captures of the O type regex. -/
structure OCaps where
  label : String
  op : String
  comment : String
  deriving DecidableEq, Repr

/-- Match a line against the O type instruction regex. -/
def matchO (line : String) : Option OCaps :=
  match matchPats oInstPats line.data with
  | some [a, b, c] => some ⟨a, b, c⟩
  | _ => none

/-- Captures of the .fill regex. -/
structure FillCaps where
  label : String
  value : String
  comment : String
  deriving DecidableEq, Repr

/-- Match a line against the .fill regex. -/
def matchFill (line : String) : Option FillCaps :=
  match matchPats fillPats line.data with
  | some [a, _, c, d] => some ⟨a, c, d⟩
  | _ => none

/-- The label extraction regex of initializeContents: a run of
non-whitespace anchored at the start, followed by one whitespace
character; the capture is the run. -/
def matchSep (line : String) : Option String :=
  match matchPats [.tokStar, .wsOne] line.data with
  | some [a] => some a
  | _ => none

/-- An operand as executeLine produces it: parseInt of the text when
Number of the text is not NaN, otherwise the raw text (a label). -/
inductive JOffset where
  | num (j : JNum)
  | str (s : String)
  deriving DecidableEq, Repr

/-- Convert an operand text exactly as the source does with
isNaN(Number(x)) followed by parseInt(x). -/
def toOffset (s : String) : JOffset :=
  if jsIsNumber s then
    match jsParseInt s with
    | some n => .num (.int n)
    | none => .num .nan
  else .str s

/-- parseInt of a register field, as a runtime number. -/
def regIdx (s : String) : JNum :=
  match jsParseInt s with
  | some n => .int n
  | none => .nan

/-- The memory object: the array created as new Array(256).fill(0), plus
the writes performed on it, keyed by the property name of the index
(integer or NaN).  Reading an unwritten integer index inside 0 .. 255
yields 0; any other unwritten index is undefined (modelled as none). -/
structure MemArr where
  writes : List (JNum × JNum)
  deriving DecidableEq, Repr

/-- Read a memory cell; none models the undefined value. -/
def memRead (m : MemArr) (i : JNum) : Option JNum :=
  match m.writes.find? (fun p => p.1 = i) with
  | some p => some p.2
  | none =>
      match i with
      | .int n => if 0 ≤ n ∧ n < 256 then some (.int 0) else none
      | .nan => none

/-- Write a memory cell (JavaScript array assignment; any index works). -/
def memWrite (m : MemArr) (i : JNum) (v : JNum) : MemArr :=
  ⟨(i, v) :: m.writes.filter (fun p => ¬(p.1 = i))⟩

/-- A value held in the variables map of the runtime.  Registers hold
numbers or, after a failed lw, the undefined value; the mem entry holds
the memory array; the dollar-variable scanner of executeLine can install
booleans, strings, decimal fractions and an object value. -/
inductive VVal where
  | num (j : JNum)
  | undefv
  | str (s : String)
  | boolv (b : Bool)
  | fracv (ip : Nat) (frac : String)
  | objv
  | arr (m : MemArr)
  deriving DecidableEq, Repr

/-- A key of the variables map.  Register entries are keyed by the
JavaScript template reg followed by the index number's string; the mem
entry and the dollar-variable names are plain strings (a dollar-variable
name never collides with a register key because it cannot contain a
space, but the name mem does collide with the memory entry, which the
constructor distinguishes below). -/
inductive VKey where
  | regk (j : JNum)
  | memk
  | othk (s : String)
  deriving DecidableEq, Repr

/-- The variables map as a lookup function; none models a missing key. -/
def Vars := VKey → Option VVal

/-- The map built by the MockRuntime constructor: eight registers all 0
and the mem array. -/
def initVars : Vars := fun k =>
  match k with
  | .regk (.int n) => if 0 ≤ n ∧ n < 8 then some (.num (.int 0)) else none
  | .regk .nan => none
  | .memk => some (.arr ⟨[]⟩)
  | .othk _ => none

/-- Map update (Map.set). -/
def vset (v : Vars) (k : VKey) (x : VVal) : Vars :=
  fun k' => if k' = k then some x else v k'

/-- The value behind get(k)?.value: undefined both when the key is absent
and when the stored value is undefined. -/
def vget (v : Vars) (k : VKey) : VVal :=
  match v k with
  | some x => x
  | none => .undefv

/-- Map.has. -/
def vhas (v : Vars) (k : VKey) : Bool := (v k).isSome

/-- JavaScript strict equality on the values the runtime compares (the
beq test); NaN is not equal to itself, undefined equals undefined, and
object values are distinct references. -/
def jsStrictEq : VVal → VVal → Bool
  | .num (.int a), .num (.int b) => a = b
  | .num .nan, _ => false
  | _, .num .nan => false
  | .undefv, .undefv => true
  | .str a, .str b => a = b
  | .boolv a, .boolv b => a = b
  | .fracv a b, .fracv c d => a = c ∧ b = d
  | _, _ => false

/-- Number(v) for a value read from the variables map. -/
def jsToNumber : VVal → JNum
  | .num j => j
  | .undefv => .nan
  | .boolv b => .int (if b then 1 else 0)
  | .str s => if jsIsNumber s then (match jsParseInt s with
      | some n => .int n
      | none => .nan) else .nan
  | .fracv _ _ => .nan
  | .objv => .nan
  | .arr _ => .nan

/-- The addition reg value + offset of the lw and sw cases, which is not
wrapped in Number: undefined plus a number is NaN. -/
def jsPlusVal (v : VVal) (o : Option JNum) : JNum :=
  match v, o with
  | .num a, some b => jadd a b
  | _, _ => .nan

/-- String conversion used by the template literals of the source. -/
def jsValToString : VVal → String
  | .num (.int n) => toString n
  | .num .nan => "NaN"
  | .undefv => "undefined"
  | .str s => s
  | .boolv b => if b then "true" else "false"
  | .fracv ip frac => toString ip ++ "." ++ frac
  | .objv => "[object Object]"
  | .arr _ => ""

/-- String conversion of a runtime number. -/
def jnumToString : JNum → String
  | .int n => toString n
  | .nan => "NaN"

/-- String conversion of an operand. -/
def joffToString : JOffset → String
  | .num j => jnumToString j
  | .str s => s

/-- An event emitted by the runtime; the payload is reduced to the parts
the specification talks about (the text of output events, the message of
exception events, the state of a validated breakpoint). -/
inductive Ev where
  | output (text : String)
  | stopOnException (msg : Option String)
  | endEv
  | stopOnEntry
  | stopOnStep
  | stopOnBreakpoint
  | stopOnInstructionBreakpoint
  | stopOnDataBreakpoint (access : String)
  | breakpointValidated (id : Nat) (line : Int) (verified : Bool)
  deriving DecidableEq, Repr

/-- A label recorded by initializeContents: a name bound to a line. -/
structure LWord where
  name : String
  line : Int
  deriving DecidableEq, Repr

/-- Label lookup: labels.find on the name, first occurrence wins. -/
def findLabel (labels : List LWord) (n : String) : Option LWord :=
  labels.find? (fun l => l.name = n)

/-- A word of the tokenizer getWords: a maximal run of ASCII letters with
its line and column. -/
structure GWord where
  name : String
  line : Int
  index : Nat
  deriving DecidableEq, Repr

/-- The tokenizer getWords on one line: all maximal runs of letters in
order, with their start columns.  The accumulator holds the reversed run
in progress and its start column. -/
def getWordsAux (l : Int) : List Char → Nat → List Char → Nat → List GWord
  | [], _, cur, start =>
      if cur.isEmpty then [] else [⟨String.mk cur.reverse, l, start⟩]
  | c :: cs, i, cur, start =>
      if isAlphaC c then
        getWordsAux l cs (i + 1) (c :: cur) (if cur.isEmpty then i else start)
      else
        (if cur.isEmpty then [] else [⟨String.mk cur.reverse, l, start⟩])
          ++ getWordsAux l cs (i + 1) [] 0

/-- getWords of the source on one line. -/
def getWords (l : Int) (line : String) : List GWord := getWordsAux l line.data 0 [] 0

/-- Does the first line character differ from a tab?  An empty line has
an undefined first character, which also differs from a tab. -/
def headNotTab (line : String) : Bool :=
  match line.data with
  | c :: _ => ¬(c = '\t')
  | [] => true

/-- Substring test (String.indexOf at least 0). -/
def containsSub : List Char → List Char → Bool
  | [], needle => needle.isEmpty
  | c :: t, needle => needle.isPrefixOf (c :: t) ∨ containsSub t needle

/-- Substring test on strings. -/
def strContainsStr (s sub : String) : Bool := containsSub s.data sub.data

/-- Index of the first occurrence of a substring. -/
def firstIdxSub : List Char → List Char → Option Nat
  | [], needle => if needle.isEmpty then some 0 else none
  | c :: t, needle =>
      if needle.isPrefixOf (c :: t) then some 0
      else (firstIdxSub t needle).map (· + 1)

/-- Index of the last occurrence of a character. -/
def lastIdxChar (cs : List Char) (c : Char) : Option Nat :=
  match firstIdxSub cs.reverse [c] with
  | some k => some (cs.length - 1 - k)
  | none => none

/-- JavaScript String.trim on the whitespace that can occur in a line. -/
def jsTrim (s : String) : String :=
  String.mk ((dropWs ((dropWs s.data).reverse)).reverse)

/-- Does the line start with the given character (indexOf(c) equal 0)? -/
def startsChar (s : String) (c : Char) : Bool := s.data.head? = some c

/-- One loader step of initializeContents on a line that is being
scanned: record the label of a non-indented line, then, if the line is a
.fill directive, resolve and store its value; the error carries the label
name reported in the output event before the early return. -/
def loadStep (l : Nat) (line : String) (labels : List LWord) (mem : MemArr) :
    List LWord × MemArr × Option String :=
  if headNotTab line then
    let labels1 := match matchSep line with
      | some name => labels ++ [⟨name, (l : Int)⟩]
      | none => labels
    match matchFill line with
    | some fc =>
        match findLabel labels1 fc.label with
        | none => (labels1, mem, some fc.label)
        | some own =>
            match toOffset fc.value with
            | .str s =>
                match findLabel labels1 s with
                | none => (labels1, mem, some s)
                | some ref =>
                    (labels1, memWrite mem (.int own.line) (.int ref.line), none)
            | .num j => (labels1, memWrite mem (.int own.line) j, none)
    | none => (labels1, mem, none)
  else (labels, mem, none)

/-- The label and .fill pass of initializeContents, aborting at the first
unresolved label exactly as the early return of the source does. -/
def loadLinesGo : List (Nat × String) → List LWord → MemArr →
    List LWord × MemArr × Option String
  | [], labels, mem => (labels, mem, none)
  | (l, s) :: rest, labels, mem =>
      match loadStep l s labels mem with
      | (labels1, mem1, some name) => (labels1, mem1, some name)
      | (labels1, mem1, none) => loadLinesGo rest labels1 mem1

/-- The starts, ends and instructions arrays of initializeContents. -/
def buildWordsGo : List String → Int → Nat → List Int × List Int × List GWord
  | [], _, _ => ([], [], [])
  | s :: rest, l, n =>
      let ws := getWords l s
      let (st, en, is) := buildWordsGo rest (l + 1) (n + ws.length)
      ((n : Int) :: st, ((n + ws.length : Nat) : Int) :: en, ws ++ is)

/-- The result of initializeContents.  On failure the early return leaves
the instruction tables empty and the labels and memory writes made so far
in place; failedLabel carries the name of the Label ... not found output
event. -/
structure LoadOut where
  ok : Bool
  failedLabel : Option String
  labels : List LWord
  mem : MemArr
  starts : List Int
  ends : List Int
  instrs : List GWord
  deriving DecidableEq, Repr

/-- initializeContents of the source on the decoded, split lines. -/
def initializeContents (lines : List String) : LoadOut :=
  match loadLinesGo (lines.enum) [] ⟨[]⟩ with
  | (labels, mem, some name) =>
      ⟨false, some name, labels, mem, [], [], []⟩
  | (labels, mem, none) =>
      let (st, en, is) := buildWordsGo lines 0 0
      ⟨true, none, labels, mem, st, en, is⟩

/-- A source breakpoint. -/
structure RBP where
  id : Nat
  line : Int
  verified : Bool
  deriving DecidableEq, Repr

/-- The immutable execution context: the loaded program and the debugger
configuration that executeLine consults. -/
structure Ctx where
  lines : List String
  labels : List LWord
  starts : List Int
  ends : List Int
  instrBps : List Int
  breakAddresses : List (String × String)
  namedException : Option String
  otherExceptions : Bool
  deriving Repr

/-- The mutable runtime state: the variables map, the program counter and
sub-line instruction pointer, the source breakpoints of the debugged
file, the events emitted so far, and a crash marker modelling an uncaught
TypeError (reading length of an undefined line). -/
structure RS where
  vars : Vars
  currentLine : JNum
  instruction : Option JNum
  bps : List RBP
  events : List Ev
  crashed : Bool

/-- Append an emitted event. -/
def emit (st : RS) (e : Ev) : RS := { st with events := st.events ++ [e] }

/-- Array indexing of a JavaScript number array by a runtime number; none
models undefined. -/
def arrGet (xs : List Int) (i : JNum) : Option Int :=
  match i with
  | .int n => if 0 ≤ n ∧ n < (xs.length : Int) then xs.get? n.toNat else none
  | .nan => none

/-- Line lookup sourceLines of the runtime; none models undefined. -/
def getLineOpt (lines : List String) (i : JNum) : Option String :=
  match i with
  | .int n => if 0 ≤ n ∧ n < (lines.length : Int) then lines.get? n.toNat else none
  | .nan => none

/-- The currentLine setter of the source: stores the value and resets the
instruction pointer to starts of that line. -/
def setCurrentLine (ctx : Ctx) (st : RS) (x : JNum) : RS :=
  { st with currentLine := x, instruction := (arrGet ctx.starts x).map .int }

/-- The mem entry read as an array and indexed; none models undefined
(also when the mem entry has been replaced by a non-array value). -/
def memValueAt (v : Vars) (address : JNum) : Option JNum :=
  match vget v .memk with
  | .arr m => memRead m address
  | _ => none

/-- Resolve the offset operand of lw and sw: a string operand is looked
up in the label table (line number of the label); a missing label emits
the Label not found exception and leaves the offset undefined. -/
def resolveMemOffset (ctx : Ctx) (st : RS) (offset : JOffset) : Option JNum × RS :=
  match offset with
  | .str s =>
      match findLabel ctx.labels s with
      | some lab => (some (.int lab.line), st)
      | none => (none, emit st (.stopOnException (some "Label not found")))
  | .num j => (some j, st)

/-- executeRType of the source: one arithmetic, branch or memory
instruction against the variables map.  Failure events are emitted but,
exactly as in the source, never abort the remaining effects of the
instruction. -/
def executeRType (ctx : Ctx) (st : RS) (op : String) (r1 r2 : JNum)
    (offset : JOffset) : RS :=
  if op = "add" then
    match offset with
    | .num j =>
        let st1 := if jgt j 7 ∨ jlt j 0 then
            emit st (.stopOnException
              (some "Invalid register: only 8 registers are available"))
          else st
        let a := jsToNumber (vget st1.vars (.regk r1))
        let b := jsToNumber (vget st1.vars (.regk r2))
        let result := toInt32 (jadd a b)
        { st1 with vars := vset st1.vars (.regk j) (.num (.int result)) }
    | .str _ => emit st (.stopOnException (some "Should be a register"))
  else if op = "nor" then
    match offset with
    | .num j =>
        let st1 := if jgt j 7 then
            emit st (.stopOnException
              (some "Invalid register: only 8 registers are available"))
          else st
        let a := jsToNumber (vget st1.vars (.regk r1))
        let b := jsToNumber (vget st1.vars (.regk r2))
        let result := toInt32 (.int (not32 (or32 (toInt32 a) (toInt32 b))))
        { st1 with vars := vset st1.vars (.regk j) (.num (.int result)) }
    | .str _ => emit st (.stopOnException (some "Should be a register"))
  else if op = "beq" then
    match offset with
    | .num j =>
        if jsStrictEq (vget st.vars (.regk r1)) (vget st.vars (.regk r2)) then
          setCurrentLine ctx st (jsub j 1)
        else st
    | .str s =>
        match findLabel ctx.labels s with
        | some lab =>
            if jsStrictEq (vget st.vars (.regk r1)) (vget st.vars (.regk r2)) then
              setCurrentLine ctx st (.int (lab.line - 1))
            else st
        | none => emit st (.stopOnException (some "Label not found"))
  else if op = "lw" then
    let (numOff, st1) := resolveMemOffset ctx st offset
    let address := jsPlusVal (vget st1.vars (.regk r1)) numOff
    let value := memValueAt st1.vars address
    let st2 := if value = none then
        emit st1 (.stopOnException (some "Memory out of bound"))
      else st1
    let stored : VVal := match value with | some j => .num j | none => .undefv
    { st2 with vars := vset st2.vars (.regk r2) stored }
  else if op = "sw" then
    let (numOff, st1) := resolveMemOffset ctx st offset
    let address := jsPlusVal (vget st1.vars (.regk r1)) numOff
    let value := jsToNumber (vget st1.vars (.regk r2))
    { st1 with vars :=
        match vget st1.vars .memk with
        | .arr m => vset st1.vars .memk (.arr (memWrite m address value))
        | _ => st1.vars }
  else st

/-- executeJType of the source: jalr stores the return line into the
second register, then jumps to the value of the first (read after the
store, so jalr with equal registers jumps to the stored return line). -/
def executeJType (ctx : Ctx) (st : RS) (op : String) (r1 r2 : JNum) : RS :=
  if op = "jalr" then
    let st1 := { st with vars := vset st.vars (.regk r2) (.num (jadd st.currentLine (.int 1))) }
    setCurrentLine ctx st1 (jsub (jsToNumber (vget st1.vars (.regk r1))) 1)
  else emit st (.stopOnException (some "Invalid instruction"))

/-- executeOType of the source: halt dumps the eight registers in index
order and emits the end event; noop does nothing. -/
def executeOType (st : RS) (op : String) : RS :=
  if op = "halt" then
    let dump := (List.range 8).foldl
      (fun acc i => emit acc (.output
        ("reg " ++ toString i ++ ": "
          ++ jsValToString (vget acc.vars (.regk (.int (i : Int))))))) st
    emit dump .endEv
  else if op = "noop" then st
  else emit st (.stopOnException (some "Invalid instruction"))

/-- The instruction-granularity loop at the head of executeLine: advance
the sub-line instruction pointer towards the boundary of the line,
stopping when it lands on an instruction breakpoint.  The fuel is the
number of remaining steps; the condition is false on NaN or undefined
bounds, exactly as the JavaScript comparisons are. -/
def instrLoopCond (ctx : Ctx) (st : RS) (ln : JNum) (reverse : Bool) : Bool :=
  if reverse then
    match st.instruction, arrGet ctx.starts ln with
    | some (.int k), some s => s ≤ k
    | _, _ => false
  else
    match st.instruction, arrGet ctx.ends ln with
    | some (.int k), some e => k < e
    | _, _ => false

/-- One pointer step of the loop: increment or decrement, with undefined
and NaN both stepping to NaN. -/
def instrStep (st : RS) (reverse : Bool) : RS :=
  { st with instruction :=
      match st.instruction with
      | some (.int k) => some (.int (if reverse then k - 1 else k + 1))
      | _ => some .nan }

/-- Membership of the instruction pointer in the instruction breakpoint
set (a set of integers; NaN is never a member here because the adapter
only adds integers). -/
def instrBpHit (ctx : Ctx) (st : RS) : Bool :=
  match st.instruction with
  | some (.int k) => ctx.instrBps.contains k
  | _ => false

/-- The bounded run of the instruction loop; the fuel computed by
instrLoopFuel always suffices. -/
def instrLoopGo : Nat → Ctx → RS → JNum → Bool → RS × Bool
  | 0, _, st, _, _ => (st, false)
  | n + 1, ctx, st, ln, reverse =>
      if instrLoopCond ctx st ln reverse then
        let st1 := instrStep st reverse
        if instrBpHit ctx st1 then
          (emit st1 .stopOnInstructionBreakpoint, true)
        else instrLoopGo n ctx st1 ln reverse
      else (st, false)

/-- Sufficient fuel for the instruction loop. -/
def instrLoopFuel (ctx : Ctx) (st : RS) (ln : JNum) (reverse : Bool) : Nat :=
  if reverse then
    match st.instruction, arrGet ctx.starts ln with
    | some (.int k), some s => (k - s + 1).toNat + 1
    | _, _ => 1
  else
    match st.instruction, arrGet ctx.ends ln with
    | some (.int k), some e => (e - k).toNat + 1
    | _, _ => 1

/-- The instruction loop of executeLine. -/
def instrLoop (ctx : Ctx) (st : RS) (ln : JNum) (reverse : Bool) : RS × Bool :=
  instrLoopGo (instrLoopFuel ctx st ln reverse) ctx st ln reverse

/-- Parse a dollar-variable name: one letter then letters or digits (the
source regex is case-insensitive). -/
def parseVarName (cs : List Char) : Option (String × List Char) :=
  match cs with
  | c :: rest =>
      if isAlphaC c then
        let tailRun := rest.takeWhile (fun d => isAlphaC d ∨ isDigitC d)
        some (String.mk (c :: tailRun), rest.drop tailRun.length)
      else none
  | [] => none

/-- Case-insensitive literal match returning the matched text. -/
def matchLitCI : List Char → List Char → Option (List Char × List Char)
  | [], cs => some ([], cs)
  | _ :: _, [] => none
  | l :: ls, c :: cs =>
      if l.toLower = c.toLower then
        (matchLitCI ls cs).map (fun p => (c :: p.1, p.2))
      else none

/-- Parse the value alternation of the dollar-variable regex, trying the
alternatives in the order of the source pattern: false, true, a decimal
number with optional fraction, a quoted string (greedy to the last
quote), a braced object (greedy to the last closing brace). -/
def parseVarValue (cs : List Char) : Option (String × List Char) :=
  match matchLitCI "false".data cs with
  | some (t, r) => some (String.mk t, r)
  | none =>
  match matchLitCI "true".data cs with
  | some (t, r) => some (String.mk t, r)
  | none =>
  match cs with
  | c :: _ =>
      if isDigitC c then
        let ds := cs.takeWhile (fun d => isDigitC d)
        let r1 := cs.drop ds.length
        match r1 with
        | '.' :: d2 :: r2 =>
            if isDigitC d2 then
              let fs := (d2 :: r2).takeWhile (fun d => isDigitC d)
              some (String.mk (ds ++ '.' :: fs), (d2 :: r2).drop fs.length)
            else some (String.mk ds, r1)
        | _ => some (String.mk ds, r1)
      else if c = Char.ofNat 34 then
        let rest := cs.drop 1
        match lastIdxChar rest (Char.ofNat 34) with
        | some j => some (String.mk (c :: (rest.take j ++ [Char.ofNat 34])), rest.drop (j + 1))
        | none => none
      else if c = Char.ofNat 123 then
        let rest := cs.drop 1
        match lastIdxChar rest (Char.ofNat 125) with
        | some j => some (String.mk (c :: (rest.take j ++ [Char.ofNat 125])), rest.drop (j + 1))
        | none => none
      else none
  | [] => none

/-- The repeated exec of the dollar-variable regex over a line: the list
of (name, optional value) matches in scan order.  The fuel is the line
length; every step consumes at least one character. -/
def scanDollarGo : Nat → List Char → List (String × Option String)
  | 0, _ => []
  | n + 1, cs =>
      match cs with
      | [] => []
      | c :: rest =>
          if c = '$' then
            match parseVarName rest with
            | some (name, r1) =>
                match r1 with
                | '=' :: r2 =>
                    match parseVarValue r2 with
                    | some (v, r3) => (name, some v) :: scanDollarGo n r3
                    | none => (name, none) :: scanDollarGo n r1
                | _ => (name, none) :: scanDollarGo n r1
            | none => scanDollarGo n rest
          else scanDollarGo n rest

/-- parseFloat of a matched decimal value (or NaN for the other texts the
source can feed it). -/
def parseFloatVal (s : String) : VVal :=
  match s.data with
  | c :: _ =>
      if isDigitC c then
        let (ip, rest) := decRun s.data 0
        match rest with
        | '.' :: frac =>
            let fracDigits := frac.takeWhile (fun d => isDigitC d)
            let trimmed := (fracDigits.reverse.dropWhile (fun d => d = '0')).reverse
            if trimmed.isEmpty then .num (.int (ip : Int))
            else .fracv ip (String.mk trimmed)
        | _ => .num (.int (ip : Int))
      else .num .nan
  | [] => .num .nan

/-- The value stored for a matched dollar-variable assignment. -/
def dollarValToVVal (v : String) : VVal :=
  if v = "true" then .boolv true
  else if v = "false" then .boolv false
  else
    match v.data with
    | c :: _ =>
        if c = Char.ofNat 34 then .str (String.mk ((v.data.drop 1).dropLast))
        else if c = Char.ofNat 123 then .objv
        else parseFloatVal v
    | [] => parseFloatVal v

/-- The key a dollar-variable name addresses in the variables map (the
name mem collides with the memory entry installed by the constructor). -/
def keyOfName (name : String) : VKey :=
  if name = "mem" then .memk else .othk name

/-- Process the dollar-variable matches of a line in order: an assignment
with a value stores it (a write access when the variable existed), a bare
mention is a read access when the variable exists; a watched access stops
with a data breakpoint event. -/
def processTokens (ctx : Ctx) : List (String × Option String) → RS → RS × Bool
  | [], st => (st, false)
  | (name, valOpt) :: rest, st =>
      let key := keyOfName name
      let stepRes : Option String × RS :=
        match valOpt with
        | some v =>
            (if vhas st.vars key then some "write" else none,
             { st with vars := vset st.vars key (dollarValToVVal v) })
        | none => (if vhas st.vars key then some "read" else none, st)
      let accessOpt := stepRes.1
      let st1 := stepRes.2
      match accessOpt, ctx.breakAddresses.find? (fun p => p.1 = name) with
      | some a, some p =>
          if strContainsStr p.2 a then (emit st1 (.stopOnDataBreakpoint a), true)
          else processTokens ctx rest st1
      | _, _ => processTokens ctx rest st1

/-- The dollar-variable scan of executeLine. -/
def dollarScan (ctx : Ctx) (line : String) (st : RS) : RS × Bool :=
  processTokens ctx (scanDollarGo line.length line.data) st

/-- The exception( ... ) scan of executeLine, followed by the bare
exception word fallback. -/
def exceptionScan (ctx : Ctx) (line : String) (st : RS) : RS × Bool :=
  let cs := line.data
  let matched : Option String :=
    match firstIdxSub cs ("exception(".data), lastIdxChar cs ')' with
    | some i, some j =>
        if i + 10 ≤ j then some (jsTrim (String.mk ((cs.drop (i + 10)).take (j - (i + 10)))))
        else none
    | _, _ => none
  match matched with
  | some exc =>
      if ctx.namedException = some exc then (emit st (.stopOnException (some exc)), true)
      else if ctx.otherExceptions then (emit st (.stopOnException none), true)
      else (st, false)
  | none =>
      if strContainsStr line "exception" ∧ ctx.otherExceptions then
        (emit st (.stopOnException none), true)
      else (st, false)

/-- executeLine of the source: run the instruction-granularity loop, then
decode the line by the regex chain in shape precedence and dispatch it,
then run the dollar-variable, exception and Stacks scans.  Returns true
when execution sent a stopping event; note that the instruction
dispatchers never produce true, so an instruction failure does not stop
the caller.  An out-of-range line index reads the string undefined, as
the JavaScript coercion in exec does. -/
def executeLine (ctx : Ctx) (st : RS) (ln : JNum) (reverse : Bool) : RS × Bool :=
  let loopRes := instrLoop ctx st ln reverse
  if loopRes.2 then loopRes else
  let st0 := loopRes.1
  let line := (getLineOpt ctx.lines ln).getD "undefined"
  let afterDecode : RS × Bool :=
    match matchR line with
    | some rc =>
        let r1 := regIdx rc.g3
        let r2 := regIdx rc.g4
        let offset := toOffset rc.g5
        let st1 := emit st0 (.output ("this R cmd: " ++ rc.label ++ " " ++ rc.op
          ++ " " ++ jnumToString r1 ++ " " ++ jnumToString r2 ++ " "
          ++ joffToString offset ++ " " ++ rc.comment))
        (executeRType ctx st1 rc.op r1 r2 offset, false)
    | none =>
    match matchJ line with
    | some jc =>
        let r1 := regIdx jc.g3
        let r2 := regIdx jc.g4
        let st1 := emit st0 (.output ("this J cmd: " ++ jc.label ++ " " ++ jc.op
          ++ " " ++ jnumToString r1 ++ " " ++ jnumToString r2 ++ " " ++ jc.comment))
        (executeJType ctx st1 jc.op r1 r2, false)
    | none =>
    match matchO line with
    | some oc =>
        let st1 := emit st0 (.output ("this O cmd: " ++ oc.label ++ " " ++ oc.op
          ++ " " ++ oc.comment))
        (executeOType st1 oc.op, false)
    | none =>
    match matchFill line with
    | some fc =>
        (emit st0 (.output ("this .fill cmd: " ++ fc.label ++ " .fill "
          ++ fc.value ++ " " ++ fc.comment)), false)
    | none => (emit st0 (.stopOnException (some "invalid pattern")), true)
  if afterDecode.2 then afterDecode else
  let st2 := afterDecode.1
  let scan1 := dollarScan ctx line st2
  if scan1.2 then scan1 else
  let scan2 := exceptionScan ctx line scan1.1
  if scan2.2 then scan2 else
  if line = "## Stacks" then (emit scan2.1 (.stopOnException none), true)
  else (scan2.1, false)

/-- updateCurrentLine of the source: advance the program counter by one,
or report reaching the first line (reverse) or the end of the program. -/
def updateCurrentLine (ctx : Ctx) (st : RS) (reverse : Bool) : RS × Bool :=
  if reverse then
    if jgt st.currentLine 0 then
      (setCurrentLine ctx st (jsub st.currentLine 1), false)
    else (emit (setCurrentLine ctx st (.int 0)) .stopOnEntry, true)
  else
    if jlt st.currentLine ((ctx.lines.length : Int) - 1) then
      (setCurrentLine ctx st (jadd st.currentLine (.int 1)), false)
    else (emit st .endEv, true)

/-- Replace the first list element satisfying the predicate. -/
def replaceFirstBy : List RBP → (RBP → Bool) → (RBP → RBP) → List RBP
  | [], _, _ => []
  | b :: rest, p, f => if p b then f b :: rest else b :: replaceFirstBy rest p f

/-- The code run after the loop of findNextStatement (also after a
break): emit the step event when one was requested. -/
def fnsFinish (st : RS) (stepEvent : Option Ev) : RS × Bool :=
  match stepEvent with
  | some e => (emit st e, true)
  | none => (st, false)

/-- The breakpoint-hit branch of findNextStatement: emit the stop event,
verify the first matching breakpoint when needed, and set the counter. -/
def fnsBpHit (ctx : Ctx) (st : RS) (ln : Int) (bp : RBP) : RS × Bool :=
  let st1 := emit st .stopOnBreakpoint
  let newBps := replaceFirstBy st1.bps (fun b => b.line = ln)
    (fun b => { b with verified := true })
  let st2 :=
    if !bp.verified then
      emit { st1 with bps := newBps } (.breakpointValidated bp.id bp.line true)
    else st1
  (setCurrentLine ctx st2 (.int ln), true)

/-- The loop body of findNextStatement from a given candidate line.  A
source breakpoint on the candidate stops (verifying it when needed); an
empty line is skipped; reading the length of an undefined line (negative
index) is the modelled crash. -/
def findNextGo : Nat → Ctx → RS → Int → Bool → Option Ev → RS × Bool
  | 0, _, st, _, _, stepEvent => fnsFinish st stepEvent
  | n + 1, ctx, st, ln, reverse, stepEvent =>
      if (if reverse then 0 ≤ ln else ln < (ctx.lines.length : Int)) then
        match st.bps.find? (fun bp => bp.line = ln) with
        | some bp => fnsBpHit ctx st ln bp
        | none =>
            match getLineOpt ctx.lines (.int ln) with
            | none => ({ st with crashed := true }, true)
            | some line =>
                if line.length > 0 then
                  fnsFinish (setCurrentLine ctx st (.int ln)) stepEvent
                else findNextGo n ctx st (if reverse then ln - 1 else ln + 1) reverse stepEvent
      else fnsFinish st stepEvent

/-- findNextStatement of the source.  A NaN program counter never enters
the loop (the JavaScript comparisons are false). -/
def findNextStatement (ctx : Ctx) (st : RS) (reverse : Bool) (stepEvent : Option Ev) :
    RS × Bool :=
  match st.currentLine with
  | .nan => fnsFinish st stepEvent
  | .int n =>
      let fuel := (if reverse then (n + 1).toNat else ((ctx.lines.length : Int) - n).toNat) + 1
      findNextGo fuel ctx st n reverse stepEvent

/-- One iteration of the continue loop of the source: execute the
current line; when it does not stop, advance the counter and skip to the
next statement.  The boolean is true when the loop breaks (a stop event,
the program bounds, or a crash). -/
def continueIter (ctx : Ctx) (st : RS) (reverse : Bool) : RS × Bool :=
  let ex := executeLine ctx st st.currentLine reverse
  if ex.2 ∨ ex.1.crashed then (ex.1, true) else
  let up := updateCurrentLine ctx ex.1 reverse
  if up.2 then (up.1, true) else
  let fn := findNextStatement ctx up.1 reverse none
  if fn.2 ∨ fn.1.crashed then (fn.1, true) else (fn.1, false)

/-- The continue loop of the source, with fuel; none models a run that
needs more fuel (the source loop can run forever). -/
def continueRun : Nat → Ctx → RS → Bool → Option RS
  | 0, _, _, _ => none
  | n + 1, ctx, st, reverse =>
      let it := continueIter ctx st reverse
      if it.2 then some it.1 else continueRun n ctx it.1 reverse

/-- verifyBreakpoints of the source on a single breakpoint: an
unverified breakpoint inside the file is shifted forward past an empty or
plus-marked line, backward past a minus-marked line, and verified unless
the line text contains the word lazy; none models the crash on a negative
line index.  A verified breakpoint (or one beyond the file) is left
untouched. -/
def verifyBp (lines : List String) (bp : RBP) : Option (RBP × List Ev) :=
  if ¬bp.verified ∧ bp.line < (lines.length : Int) then
    match getLineOpt lines (.int bp.line) with
    | none => none
    | some src =>
        let l1 := if src.length = 0 ∨ startsChar src '+' then bp.line + 1 else bp.line
        let l2 := if startsChar src '-' then l1 - 1 else l1
        if strContainsStr src "lazy" then some ({ bp with line := l2 }, [])
        else some ({ bp with line := l2, verified := true },
                   [.breakpointValidated bp.id l2 true])
  else some (bp, [])

/-- verifyBreakpoints over the breakpoint list of a file (forEach). -/
def verifyBps (lines : List String) : List RBP → Option (List RBP × List Ev)
  | [] => some ([], [])
  | b :: rest =>
      match verifyBp lines b with
      | none => none
      | some (b', evs) =>
          match verifyBps lines rest with
          | none => none
          | some (rest', evs2) => some (b' :: rest', evs ++ evs2)

/-- normalizePathAndCasing of the source: on Windows replace slashes by
backslashes and lowercase, otherwise replace backslashes by slashes. -/
def normPath (isWin : Bool) (p : String) : String :=
  if isWin then
    String.mk ((p.data.map (fun c => if c = '/' then '\\' else c)).map Char.toLower)
  else String.mk (p.data.map (fun c => if c = '\\' then '/' else c))

/-- The breakpoint table of the runtime: the id counter (initialised to 1
by the field declaration) and the per-file breakpoint lists. -/
structure BpMap where
  nextId : Nat
  files : List (String × List RBP)
  deriving DecidableEq, Repr

/-- The table at construction time. -/
def initBpMap : BpMap := ⟨1, []⟩

/-- The breakpoint list of a file (empty when absent). -/
def getFileBps (m : BpMap) (path : String) : List RBP :=
  match m.files.find? (fun p => p.1 = path) with
  | some p => p.2
  | none => []

/-- Store the breakpoint list of a file. -/
def setFileBps (m : BpMap) (path : String) (bps : List RBP) : BpMap :=
  { m with files :=
      if (m.files.find? (fun p => p.1 = path)).isSome then
        m.files.map (fun p => if p.1 = path then (path, bps) else p)
      else m.files ++ [(path, bps)] }

/-- The first half of setBreakPoint: create a breakpoint carrying the
current counter value, push it onto the file's list and increment the
counter. -/
def pushBp (m : BpMap) (path : String) (line : Int) : BpMap :=
  { setFileBps m path (getFileBps m path ++ [⟨m.nextId, line, false⟩]) with
    nextId := m.nextId + 1 }

/-- setBreakPoint of the source: create a breakpoint with the next id,
push it onto the file's list, verify the file's breakpoints, and return
the stored (possibly adjusted and verified) breakpoint; the verification
pass is run against the loaded program lines.  none models the crash
inside verification. -/
def setBreakPoint (isWin : Bool) (lines : List String) (m : BpMap)
    (path0 : String) (line : Int) : Option (BpMap × RBP) :=
  match verifyBps lines
      (getFileBps (pushBp m (normPath isWin path0) line) (normPath isWin path0)) with
  | none => none
  | some (bps', _) =>
      match bps'.getLast? with
      | some bpr =>
          some (setFileBps (pushBp m (normPath isWin path0) line)
            (normPath isWin path0) bps', bpr)
      | none => none

/-- Remove the first list element satisfying the predicate (splice after
findIndex). -/
def removeFirstBy : List RBP → (RBP → Bool) → List RBP
  | [], _ => []
  | b :: rest, p => if p b then rest else b :: removeFirstBy rest p

/-- clearBreakPoint of the source: remove and return the first breakpoint
of the file with the given line. -/
def clearBreakPoint (isWin : Bool) (m : BpMap) (path0 : String) (line : Int) :
    BpMap × Option RBP :=
  let path := normPath isWin path0
  match m.files.find? (fun p => p.1 = path) with
  | none => (m, none)
  | some pr =>
      match pr.2.find? (fun bp => bp.line = line) with
      | none => (m, none)
      | some bp => (setFileBps m path (removeFirstBy pr.2 (fun b => b.line = line)), some bp)

/-- clearBreakpoints of the source: drop the file's entry. -/
def clearAllBps (isWin : Bool) (m : BpMap) (path0 : String) : BpMap :=
  { m with files := m.files.filter (fun p => ¬(p.1 = normPath isWin path0)) }

/-- A breakpoint API call of the controller. -/
inductive BpOp where
  | set (p : String) (l : Int)
  | clear (p : String) (l : Int)
  | clearAll (p : String)

/-- Run a sequence of breakpoint calls against the table, collecting the
breakpoints returned by the set calls in order; a crash inside a set call
ends the sequence. -/
def runOps (isWin : Bool) (lines : List String) : List BpOp → BpMap → BpMap × List RBP
  | [], m => (m, [])
  | .set p l :: rest, m =>
      match setBreakPoint isWin lines m p l with
      | none => (m, [])
      | some (m1, bp) =>
          let r := runOps isWin lines rest m1
          (r.1, bp :: r.2)
  | .clear p l :: rest, m =>
      runOps isWin lines rest (clearBreakPoint isWin m p l).1
  | .clearAll p :: rest, m =>
      runOps isWin lines rest (clearAllBps isWin m p)

/-- The runtime state right after the constructor and a load: registers
zero, memory fresh, the counter on line 0 with the instruction pointer
at the start table entry of line 0 (field initialiser 0 coincides with
it), no crash. -/
def initRS (bps : List RBP) : RS :=
  ⟨initVars, .int 0, some (.int 0), bps, [], false⟩

/-- Build the execution context from a load result with the given
debugger configuration. -/
def mkCtx (lines : List String) (lo : LoadOut) (instrBps : List Int)
    (breakAddresses : List (String × String)) (namedException : Option String)
    (otherExceptions : Bool) : Ctx :=
  ⟨lines, lo.labels, lo.starts, lo.ends, instrBps, breakAddresses,
   namedException, otherExceptions⟩

/-- The context of a freshly loaded program with no breakpoints and the
default exception filter configuration. -/
def plainCtx (lines : List String) : Ctx :=
  mkCtx lines (initializeContents lines) [] [] none false

/-- The memory image after a load (the mem entry of the variables map is
the constructor array mutated by the fill pass); the initial variables of
an execution therefore carry this array. -/
def varsAfterLoad (lines : List String) : Vars :=
  vset initVars .memk (.arr (initializeContents lines).mem)

/-- Runtime state after loading a program, with given breakpoints. -/
def loadedRS (lines : List String) (bps : List RBP) : RS :=
  { initRS bps with vars := varsAfterLoad lines }

/-- A fresh runtime state with no loaded memory writes (registers zero,
constructor memory). -/
def freshRS : RS := ⟨initVars, .int 0, some (.int 0), [], [], false⟩

/-- Program of the C2 analysis: a single lw whose address 300 holds an
undefined cell. -/
def c2Lines : List String := [" lw 0 1 300"]

/-- Program of the C4 analysis: two halt lines. -/
def c4Lines : List String := [" halt", " halt"]

/-- Program of the C1 counterexample: a .fill referencing a label that is
declared only on a later line. -/
def c1Lines : List String := ["a .fill b", "b .fill 5"]

/-- Program of the C1 witness: a backward .fill reference. -/
def c1wLines : List String := ["a .fill 5", "b .fill a"]

/-- Program of the C3 counterexample: three lines, a lw of the unwritten
cell 2 which lies inside the line count. -/
def c3Lines : List String := ["a .fill 1", " lw 0 1 2", " halt"]

/-- Program of the C7 counterexample: a sw far outside the line count. -/
def c7Lines : List String := [" sw 0 0 500", " halt"]

/-- Program of the C9 counterexample: lazily marked lines that shift a
breakpoint on every verification. -/
def c9Lines : List String := ["+lazy", "+lazy", "x"]

/-- C2.  The claim of failure atomicity is false on the code: running
continue on the one-line program with lw 0 1 300 raises the InvalidMemory
exception event (Memory out of bound), yet the failing line is not
aborted: the destination register 1, initially 0, is overwritten with the
undefined value, and the continue call proceeds past the failing line to
the end of the program (the end event follows the exception instead of
the run halting at the failing line with state intact). -/
theorem c2_failure_not_atomic :
    vget (loadedRS c2Lines []).vars (.regk (.int 1)) = .num (.int 0)
    ∧ ((continueRun 10 (plainCtx c2Lines) (loadedRS c2Lines []) false).map
        (fun st => (st.events, vget st.vars (.regk (.int 1)))))
      = some ([.output "this R cmd:  lw 0 1 300 ",
               .stopOnException (some "Memory out of bound"), .endEv], .undefv) := by
  decide

/-- C4.  Halt emits the register dump of all eight registers in index
order followed by the end event, but does not terminate the run: on the
two-line program halt, halt the first iteration's ten events are the
console line, the dump of reg 0 through reg 7 in order and end, yet the
continue call executes the second halt line as well, so the dump appears
twice and end three times. -/
theorem c4_halt_not_terminating :
    ((continueRun 10 (plainCtx c4Lines) (loadedRS c4Lines []) false).map
       (fun st => st.events.take 10))
      = some [.output "this O cmd:  halt ",
              .output "reg 0: 0", .output "reg 1: 0", .output "reg 2: 0",
              .output "reg 3: 0", .output "reg 4: 0", .output "reg 5: 0",
              .output "reg 6: 0", .output "reg 7: 0", .endEv]
    ∧ ((continueRun 10 (plainCtx c4Lines) (loadedRS c4Lines []) false).map
        (fun st => ((st.events.filter (fun e => e = Ev.endEv)).length,
                    (st.events.filter (fun e => e = Ev.output "reg 0: 0")).length)))
      = some (3, 2) := by
  decide

/-- C6.  The register-range check is asymmetric: add with destination -1
emits the InvalidRegister exception event, but nor with the same
destination -1 emits nothing (its check omits the negative bound) and
even installs a spurious register entry reg -1 in the variables map. -/
theorem c6_nor_missing_negative_check :
    (executeRType (plainCtx [""]) freshRS "add" (.int 0) (.int 0)
        (.num (.int (-1)))).events
      = [.stopOnException (some "Invalid register: only 8 registers are available")]
    ∧ (executeRType (plainCtx [""]) freshRS "nor" (.int 0) (.int 0)
        (.num (.int (-1)))).events = []
    ∧ ((executeRType (plainCtx [""]) freshRS "nor" (.int 0) (.int 0)
        (.num (.int (-1)))).vars (.regk (.int (-1)))).isSome = true := by
  decide

/-- C1 counterexample.  The claim predicts that a .fill referencing a
label declared on a later line loads successfully; on the program
a .fill b, b .fill 5 the loader instead aborts at line 0 reporting label
b as not found (it resolves references against the labels seen so far,
one pass), no instruction tables are built, and no memory cell of the
program is written. -/
theorem c1_forward_ref_counterexample :
    (initializeContents c1Lines).ok = false
    ∧ (initializeContents c1Lines).failedLabel = some "b"
    ∧ (initializeContents c1Lines).mem = ⟨[]⟩
    ∧ (initializeContents c1Lines).starts = [] := by
  decide

/-- C3 counterexample.  After loading the three-line program the memory
is not a lineCount-sized array of undefined cells: the unwritten cell 2
(inside the line count) reads 0, cell 100 (far beyond the line count)
also reads 0, and executing the lw of cell 2 raises no exception and
stores 0 into register 1 instead of failing with InvalidMemory. -/
theorem c3_memory_counterexample :
    memValueAt (varsAfterLoad c3Lines) (.int 2) = some (.int 0)
    ∧ memValueAt (varsAfterLoad c3Lines) (.int 100) = some (.int 0)
    ∧ (executeLine (plainCtx c3Lines) (loadedRS c3Lines []) (.int 1) false).2 = false
    ∧ (executeLine (plainCtx c3Lines) (loadedRS c3Lines []) (.int 1) false).1.events
        = [.output "this R cmd:  lw 0 1 2 "]
    ∧ vget (executeLine (plainCtx c3Lines) (loadedRS c3Lines []) (.int 1) false).1.vars
        (.regk (.int 1)) = .num (.int 0) := by
  decide

/-- C7 counterexample.  The claim predicts that a sw whose computed
address 500 lies outside the two-line program's address range fails with
InvalidMemory and writes nothing; the code instead emits no exception
event and performs the write (cell 500, previously undefined, afterwards
holds 0). -/
theorem c7_sw_oob_counterexample :
    memValueAt (loadedRS c7Lines []).vars (.int 500) = none
    ∧ (executeLine (plainCtx c7Lines) (loadedRS c7Lines []) (.int 0) false).2 = false
    ∧ (executeLine (plainCtx c7Lines) (loadedRS c7Lines []) (.int 0) false).1.events
        = [.output "this R cmd:  sw 0 0 500 "]
    ∧ memValueAt (executeLine (plainCtx c7Lines) (loadedRS c7Lines []) (.int 0) false).1.vars
        (.int 500) = some (.int 0) := by
  decide

/-- C9 counterexample.  Verifying an unverified breakpoint on a lazily
marked line is not idempotent: on the program with lines +lazy, +lazy, x
the first verification of the breakpoint at line 0 moves it to line 1
still unverified, and a second verification moves it again to line 2, a
different (line, verified) state than the one the first verification
produced. -/
theorem c9_lazy_counterexample :
    verifyBp c9Lines ⟨1, 0, false⟩ = some (⟨1, 1, false⟩, [])
    ∧ verifyBp c9Lines ⟨1, 1, false⟩ = some (⟨1, 2, false⟩, [])
    ∧ ((verifyBp c9Lines ⟨1, 0, false⟩).bind (fun p => verifyBp c9Lines p.1)
        ≠ verifyBp c9Lines ⟨1, 0, false⟩) := by
  decide

/-- Reading back the key just written in the variables map. -/
theorem vget_vset_same (v : Vars) (k : VKey) (x : VVal) : vget (vset v k x) k = x := by
  simp [vget, vset]

/-- The signed 32-bit representative agrees with the argument modulo 2^32
and lies in the signed range. -/
theorem toInt32_int_spec (x : Int) :
    (toInt32 (.int x)) % 4294967296 = x % 4294967296
    ∧ -2147483648 ≤ toInt32 (.int x) ∧ toInt32 (.int x) < 2147483648 := by
  have hx : toInt32 (.int x)
      = if 2147483648 ≤ x % 4294967296 then x % 4294967296 - 4294967296
        else x % 4294967296 := rfl
  have h1 : 0 ≤ x % 4294967296 := Int.emod_nonneg x (by norm_num)
  have h2 : x % 4294967296 < 4294967296 := Int.emod_lt_of_pos x (by norm_num)
  rw [hx]
  by_cases hc : (2147483648 : Int) ≤ x % 4294967296
  · rw [if_pos hc]; exact ⟨by omega, by omega, by omega⟩
  · rw [if_neg hc]; exact ⟨by omega, by omega, by omega⟩

/-- C5.  Arithmetic truncation of add: for 32-bit register values a and b
the stored destination value is the signed 32-bit representative of
a + b, which is congruent to (a + b) mod 2^32; no exception is emitted
for a destination index in 0 .. 7.  (On the concrete pair 0xFFFFFFFF and
1 this representative is exactly 0, see the witness.) -/
theorem c5_add_truncation (ctx : Ctx) (st : RS) (r1 r2 : JNum) (d a b : Int)
    (h1 : vget st.vars (.regk r1) = .num (.int a))
    (h2 : vget st.vars (.regk r2) = .num (.int b))
    (hd0 : 0 ≤ d) (hd7 : d ≤ 7)
    (ha : -2147483648 ≤ a ∧ a < 4294967296)
    (hb : -2147483648 ≤ b ∧ b < 4294967296) :
    vget (executeRType ctx st "add" r1 r2 (.num (.int d))).vars (.regk (.int d))
        = .num (.int (toInt32 (.int (a + b))))
    ∧ (toInt32 (.int (a + b))) % 4294967296 = (a + b) % 4294967296
    ∧ -2147483648 ≤ toInt32 (.int (a + b)) ∧ toInt32 (.int (a + b)) < 2147483648
    ∧ (executeRType ctx st "add" r1 r2 (.num (.int d))).events = st.events := by
  have hgt : jgt (.int d) 7 = false := by simp [jgt]; omega
  have hlt : jlt (.int d) 0 = false := by simp [jlt]; omega
  have hspec := toInt32_int_spec (a + b)
  unfold executeRType
  simp only [reduceIte, hgt, hlt, Bool.or_self, Bool.false_or, or_self, if_false,
    h1, h2, jsToNumber, jadd]
  refine ⟨by simp [vget_vset_same, h1, h2, jsToNumber, jadd], hspec.1, hspec.2.1,
    hspec.2.2, rfl⟩

/-- The register values of the C5 witness: register 1 holds 0xFFFFFFFF
and register 2 holds 1. -/
def c5vars : Vars :=
  vset (vset initVars (.regk (.int 1)) (.num (.int 4294967295)))
    (.regk (.int 2)) (.num (.int 1))

/-- The runtime state of the C5 witness. -/
def c5st : RS := ⟨c5vars, .int 0, some (.int 0), [], [], false⟩

/-- C5 witness: with registers holding 0xFFFFFFFF and 1, add stores
exactly 0 in the destination register. -/
theorem c5_add_truncation_witness :
    vget (executeRType (plainCtx [""]) c5st "add" (.int 1) (.int 2)
        (.num (.int 3))).vars (.regk (.int 3)) = .num (.int 0) := by
  have h := c5_add_truncation (plainCtx [""]) c5st (.int 1) (.int 2) 3 4294967295 1
    (by decide) (by decide) (by decide) (by decide) (by decide) (by decide)
  exact h.1.trans (by decide)

/-- C9 (amended).  Verifying an already verified breakpoint is a no-op,
and re-verifying a breakpoint that the first verification marked
verified reproduces the state of the first verification; only lazily
marked breakpoints (which stay unverified) can move again, as the
counterexample shows. -/
theorem c9_verify_amended (lines : List String) (bp : RBP) :
    (bp.verified = true → verifyBp lines bp = some (bp, []))
    ∧ (∀ bp' evs, verifyBp lines bp = some (bp', evs) → bp'.verified = true →
        verifyBp lines bp' = some (bp', [])) := by
  constructor
  · intro hv; unfold verifyBp; simp [hv]
  · intro bp' evs _ hv; unfold verifyBp; simp [hv]

/-- C9 witness: a breakpoint verified by a first pass on the one-line
program x is left untouched by a second verification. -/
theorem c9_verify_amended_witness :
    verifyBp ["x"] ⟨1, 0, true⟩ = some (⟨1, 0, true⟩, []) := by
  exact (c9_verify_amended ["x"] ⟨1, 0, false⟩).2 ⟨1, 0, true⟩
    [.breakpointValidated 1 0 true] (by decide) rfl

/-- C3 (amended).  The memory of the runtime is the fixed 256-cell array
of the constructor, each cell initialized to 0 (not lineCount cells, not
undefined); an lw whose computed address holds a defined cell succeeds
silently, storing the cell value into the destination register and
emitting no event. -/
theorem c3_memory_amended :
    (∀ n : Int, 0 ≤ n → n < 256 → memRead ⟨[]⟩ (.int n) = some (.int 0))
    ∧ ∀ (ctx : Ctx) (st : RS) (r1 r2 : JNum) (j : JNum) (a : Int) (v : JNum),
        jsPlusVal (vget st.vars (.regk r1)) (some j) = .int a →
        memValueAt st.vars (.int a) = some v →
        vget (executeRType ctx st "lw" r1 r2 (.num j)).vars (.regk r2) = .num v
        ∧ (executeRType ctx st "lw" r1 r2 (.num j)).events = st.events := by
  constructor
  · intro n h0 h256
    simp [memRead, List.find?, h0, h256]
  · intro ctx st r1 r2 j a v haddr hv
    unfold executeRType resolveMemOffset
    simp only [reduceIte, haddr, hv]
    constructor
    · simp [vget_vset_same, haddr, hv]
    · simp [haddr, hv]

/-- C3 witness: on the loaded three-line program the lw of the unwritten
in-range cell 2 stores 0 into register 1, and the constructor array
serves 0 for the unwritten cell 5. -/
theorem c3_memory_amended_witness :
    vget (executeRType (plainCtx c3Lines) (loadedRS c3Lines []) "lw" (.int 0) (.int 1)
        (.num (.int 2))).vars (.regk (.int 1)) = .num (.int 0)
    ∧ memRead ⟨[]⟩ (.int 5) = some (.int 0) := by
  exact ⟨(c3_memory_amended.2 (plainCtx c3Lines) (loadedRS c3Lines []) (.int 0) (.int 1)
      (.int 2) 2 (.int 0) (by decide) (by decide)).1,
    c3_memory_amended.1 5 (by decide) (by decide)⟩

/-- C7 (amended).  A sw with a numeric offset performs no bounds check at
all: whatever the computed address (inside or outside the program's line
count, negative, or NaN), the write is performed unconditionally into
the memory array and no exception event is emitted. -/
theorem c7_sw_amended (ctx : Ctx) (st : RS) (r1 r2 : JNum) (j : JNum) (m : MemArr)
    (hmem : vget st.vars .memk = .arr m) :
    (executeRType ctx st "sw" r1 r2 (.num j)).vars .memk
      = some (.arr (memWrite m (jsPlusVal (vget st.vars (.regk r1)) (some j))
          (jsToNumber (vget st.vars (.regk r2)))))
    ∧ (executeRType ctx st "sw" r1 r2 (.num j)).events = st.events := by
  unfold executeRType resolveMemOffset
  simp only [reduceIte, hmem]
  exact ⟨by simp [vset], rfl⟩

/-- C7 witness: on the loaded two-line program the sw to address 500
(outside the two program lines) writes the cell and emits nothing. -/
theorem c7_sw_amended_witness :
    (executeRType (plainCtx c7Lines) (loadedRS c7Lines []) "sw" (.int 0) (.int 0)
        (.num (.int 500))).vars .memk = some (.arr ⟨[(.int 500, .int 0)]⟩)
    ∧ (executeRType (plainCtx c7Lines) (loadedRS c7Lines []) "sw" (.int 0) (.int 0)
        (.num (.int 500))).events = [] := by
  have h := c7_sw_amended (plainCtx c7Lines) (loadedRS c7Lines []) (.int 0) (.int 0)
    (.int 500) ⟨[]⟩ (by decide)
  exact ⟨h.1.trans (by decide), h.2.trans (by decide)⟩

/-- verifyBreakpoints never changes a breakpoint's id. -/
theorem verifyBp_id (lines : List String) (bp bp' : RBP) (evs : List Ev)
    (h : verifyBp lines bp = some (bp', evs)) : bp'.id = bp.id := by
  unfold verifyBp at h
  by_cases h1 : (¬bp.verified ∧ bp.line < (lines.length : Int))
  · rw [if_pos h1] at h
    cases hg : getLineOpt lines (.int bp.line) with
    | none => rw [hg] at h; cases h
    | some src =>
        rw [hg] at h
        by_cases h2 : strContainsStr src "lazy" = true
        · simp only [h2, if_true] at h
          cases h; rfl
        · simp only [h2, Bool.false_eq_true, if_false] at h
          cases h; rfl
  · rw [if_neg h1] at h
    cases h; rfl

/-- The verification pass preserves the list of ids. -/
theorem verifyBps_ids (lines : List String) :
    ∀ (bps bps' : List RBP) (evs : List Ev),
      verifyBps lines bps = some (bps', evs) →
      bps'.map (fun b => b.id) = bps.map (fun b => b.id)
  | [], bps', evs, h => by
      unfold verifyBps at h; cases h; rfl
  | b :: rest, bps', evs, h => by
      unfold verifyBps at h
      cases hb : verifyBp lines b with
      | none => rw [hb] at h; cases h
      | some pr =>
          rw [hb] at h
          cases hr : verifyBps lines rest with
          | none => rw [hr] at h; cases h
          | some pr2 =>
              rw [hr] at h
              cases h
              simp only [List.map_cons]
              rw [verifyBp_id lines b pr.1 pr.2 (by rw [hb]),
                verifyBps_ids lines rest pr2.1 pr2.2 (by rw [hr])]

/-- Finding the stored entry inside a files list after a present-key
update. -/
theorem find_set_present (path : String) (bps : List RBP) :
    ∀ (files : List (String × List RBP)),
      (files.find? (fun p => p.1 = path)).isSome = true →
      ((files.map (fun p => if p.1 = path then (path, bps) else p)).find?
        (fun p => p.1 = path)) = some (path, bps)
  | [], hc => by cases hc
  | q :: qs, hc => by
      by_cases hq : q.1 = path
      · simp [List.find?, hq]
      · have hc' : (qs.find? (fun p => p.1 = path)).isSome = true := by
          rw [List.find?_cons_of_neg] at hc
          · exact hc
          · simp [hq]
        have := find_set_present path bps qs hc'
        simp only [List.map_cons, if_neg hq]
        rw [List.find?_cons_of_neg]
        · exact this
        · simp [hq]

/-- Finding the appended entry inside a files list after an absent-key
update. -/
theorem find_set_absent (path : String) (bps : List RBP) :
    ∀ (files : List (String × List RBP)),
      files.find? (fun p => p.1 = path) = none →
      ((files ++ [(path, bps)]).find? (fun p => p.1 = path)) = some (path, bps)
  | [], _ => by simp [List.find?]
  | q :: qs, hc => by
      by_cases hq : q.1 = path
      · rw [List.find?_cons_of_pos] at hc
        · cases hc
        · simp [hq]
      · rw [List.find?_cons_of_neg] at hc
        · have := find_set_absent path bps qs hc
          rw [List.cons_append, List.find?_cons_of_neg]
          · exact this
          · simp [hq]
        · simp [hq]

/-- Reading back the breakpoint list just stored for a file; the id
counter field is irrelevant to the lookup. -/
theorem getFileBps_files_set (m : BpMap) (k : Nat) (path : String) (bps : List RBP) :
    getFileBps ⟨k, (setFileBps m path bps).files⟩ path = bps := by
  unfold getFileBps setFileBps
  by_cases hf : (m.files.find? (fun p => p.1 = path)).isSome
  · simp only [hf, if_true]
    rw [find_set_present path bps m.files hf]
  · simp only [hf, Bool.false_eq_true, if_false]
    have hnone : m.files.find? (fun p => p.1 = path) = none := by
      cases hx : m.files.find? (fun p => p.1 = path) with
      | none => rfl
      | some v => rw [hx] at hf; simp at hf
    rw [find_set_absent path bps m.files hnone]

/-- Mapped ids commute with the last-element lookup. -/
theorem getLast?_map_id : ∀ (l : List RBP),
    (l.map (fun b => b.id)).getLast? = (l.getLast?).map (fun b => b.id)
  | [] => rfl
  | [_] => rfl
  | a :: b :: t => by
      have := getLast?_map_id (b :: t)
      simp only [List.map_cons] at this ⊢
      rw [List.getLast?_cons_cons, List.getLast?_cons_cons, this]

/-- The last element of an appended singleton. -/
theorem getLast?_snoc (k : Nat) : ∀ (xs : List Nat), (xs ++ [k]).getLast? = some k
  | [] => rfl
  | a :: t => by
      have ht := getLast?_snoc k t
      cases t with
      | nil => rfl
      | cons b t' =>
          rw [List.cons_append] at ht ⊢
          rw [List.cons_append, List.getLast?_cons_cons]
          exact ht

/-- setBreakPoint returns a breakpoint whose id is the counter value and
increments the counter by one. -/
theorem setBreakPoint_spec (isWin : Bool) (lines : List String) (m : BpMap)
    (path0 : String) (line : Int) (m' : BpMap) (bp : RBP)
    (h : setBreakPoint isWin lines m path0 line = some (m', bp)) :
    bp.id = m.nextId ∧ m'.nextId = m.nextId + 1 := by
  unfold setBreakPoint at h
  split at h
  · cases h
  · rename_i bps' evs hv
    split at h
    · rename_i bpr hl
      cases h
      have hfile : getFileBps (pushBp m (normPath isWin path0) line) (normPath isWin path0)
          = getFileBps m (normPath isWin path0) ++ [⟨m.nextId, line, false⟩] := by
        unfold pushBp
        exact getFileBps_files_set m (m.nextId + 1) (normPath isWin path0) _
      have hids := verifyBps_ids lines _ bps' evs hv
      rw [hfile] at hids
      have hlast : (bps'.map (fun b => b.id)).getLast? = some m.nextId := by
        rw [hids, List.map_append]
        exact getLast?_snoc m.nextId _
      rw [getLast?_map_id, hl] at hlast
      exact ⟨by simpa using hlast, rfl⟩
    · cases h

/-- clearBreakPoint leaves the id counter alone. -/
theorem clearBreakPoint_nextId (isWin : Bool) (m : BpMap) (p : String) (l : Int) :
    (clearBreakPoint isWin m p l).1.nextId = m.nextId := by
  unfold clearBreakPoint
  dsimp only
  split
  · rfl
  · split
    · rfl
    · rfl

/-- clearBreakpoints leaves the id counter alone. -/
theorem clearAllBps_nextId (isWin : Bool) (m : BpMap) (p : String) :
    (clearAllBps isWin m p).nextId = m.nextId := rfl

/-- The collected set results of a call sequence have strictly increasing
ids, all at least the starting counter value. -/
theorem runOps_ids (isWin : Bool) (lines : List String) :
    ∀ (ops : List BpOp) (m : BpMap),
      (∀ b ∈ (runOps isWin lines ops m).2, m.nextId ≤ b.id)
      ∧ (runOps isWin lines ops m).2.Pairwise (fun a b => a.id < b.id)
  | [], m => by simp [runOps]
  | .set p l :: rest, m => by
      unfold runOps
      cases hs : setBreakPoint isWin lines m p l with
      | none => simp
      | some pr =>
          have hspec := setBreakPoint_spec isWin lines m p l pr.1 pr.2 (by rw [hs])
          have ih := runOps_ids isWin lines rest pr.1
          constructor
          · intro b hb
            simp only [List.mem_cons] at hb
            cases hb with
            | inl hb => subst hb; omega
            | inr hb => have := ih.1 b hb; omega
          · refine List.Pairwise.cons ?_ ih.2
            intro b hb
            have := ih.1 b hb
            omega
  | .clear p l :: rest, m => by
      unfold runOps
      have hn := clearBreakPoint_nextId isWin m p l
      have ih := runOps_ids isWin lines rest (clearBreakPoint isWin m p l).1
      exact ⟨fun b hb => by have := ih.1 b hb; omega, ih.2⟩
  | .clearAll p :: rest, m => by
      unfold runOps
      have ih := runOps_ids isWin lines rest (clearAllBps isWin m p)
      have hn := clearAllBps_nextId isWin m p
      exact ⟨fun b hb => by have := ih.1 b hb; omega, ih.2⟩

/-- C10.  Breakpoint id uniqueness: over any sequence of set and clear
calls starting from the constructor state, every breakpoint returned by a
later set call carries a strictly greater id than every breakpoint
returned by an earlier one (the counter increments at each creation and
is never reused, also after clearing). -/
theorem c10_bp_ids_monotone (isWin : Bool) (lines : List String) (ops : List BpOp)
    (i j : Fin ((runOps isWin lines ops initBpMap).2).length) (hij : i < j) :
    (((runOps isWin lines ops initBpMap).2).get i).id
      < (((runOps isWin lines ops initBpMap).2).get j).id :=
  (List.pairwise_iff_get.mp (runOps_ids isWin lines ops initBpMap).2) i j hij

/-- C10 witness: on the sequence set line 0, clear line 0, set line 1 the
first and second returned breakpoints have strictly increasing ids. -/
theorem c10_bp_ids_monotone_witness :
    (((runOps false ["x"] [.set "f" 0, .clear "f" 0, .set "f" 1] initBpMap).2).get
        ⟨0, by decide⟩).id
      < (((runOps false ["x"] [.set "f" 0, .clear "f" 0, .set "f" 1] initBpMap).2).get
        ⟨1, by decide⟩).id :=
  c10_bp_ids_monotone false ["x"] [.set "f" 0, .clear "f" 0, .set "f" 1]
    ⟨0, by decide⟩ ⟨1, by decide⟩ (by decide)

/-- With no instruction breakpoints the instruction loop never stops and
only moves the instruction pointer. -/
theorem instrLoopGo_no_bps (ctx : Ctx) (hctx : ctx.instrBps = []) :
    ∀ (n : Nat) (st : RS) (ln : JNum) (rev : Bool),
      (instrLoopGo n ctx st ln rev).2 = false
      ∧ ∃ ins, (instrLoopGo n ctx st ln rev).1 = { st with instruction := ins }
  | 0, st, ln, rev => ⟨rfl, st.instruction, rfl⟩
  | n + 1, st, ln, rev => by
      unfold instrLoopGo
      by_cases hc : instrLoopCond ctx st ln rev = true
      · simp only [hc, if_true]
        have hhit : instrBpHit ctx (instrStep st rev) = false := by
          unfold instrBpHit
          cases (instrStep st rev).instruction with
          | none => rfl
          | some j => cases j with
            | nan => rfl
            | int k => simp [hctx]
        simp only [hhit, Bool.false_eq_true, if_false]
        have ih := instrLoopGo_no_bps ctx hctx n (instrStep st rev) ln rev
        obtain ⟨h1, ins, h2⟩ := ih
        exact ⟨h1, ins, by rw [h2]; rfl⟩
      · simp only [Bool.not_eq_true] at hc
        simp only [hc, Bool.false_eq_true, if_false]
        exact ⟨trivial, st.instruction, rfl⟩

/-- The instruction loop of executeLine, with no instruction breakpoints,
as a pair equation. -/
theorem instrLoop_no_bps (ctx : Ctx) (st : RS) (ln : JNum) (rev : Bool)
    (hctx : ctx.instrBps = []) :
    ∃ ins, instrLoop ctx st ln rev = ({ st with instruction := ins }, false) := by
  obtain ⟨h1, ins, h2⟩ :=
    instrLoopGo_no_bps ctx hctx (instrLoopFuel ctx st ln rev) st ln rev
  exact ⟨ins, Prod.ext h2 h1⟩

/-- beq with a numeric target and equal register values redirects the
counter to the target minus one. -/
theorem executeRType_beq_num (ctx : Ctx) (st : RS) (r1 r2 : JNum) (T : Int)
    (heq : jsStrictEq (vget st.vars (.regk r1)) (vget st.vars (.regk r2)) = true) :
    executeRType ctx st "beq" r1 r2 (.num (.int T))
      = setCurrentLine ctx st (.int (T - 1)) := by
  unfold executeRType
  simp only [reduceIte, heq, if_true]
  rfl

/-- beq with a numeric target and unequal register values leaves the
state alone. -/
theorem executeRType_beq_num_ne (ctx : Ctx) (st : RS) (r1 r2 : JNum) (T : Int)
    (heq : jsStrictEq (vget st.vars (.regk r1)) (vget st.vars (.regk r2)) = false) :
    executeRType ctx st "beq" r1 r2 (.num (.int T)) = st := by
  unfold executeRType
  simp only [reduceIte, heq, Bool.false_eq_true, if_false]
  rfl

/-- beq with a symbolic target found in the label table and equal
register values redirects the counter to the label's line minus one. -/
theorem executeRType_beq_str (ctx : Ctx) (st : RS) (r1 r2 : JNum) (s : String)
    (w : LWord) (hfind : findLabel ctx.labels s = some w)
    (heq : jsStrictEq (vget st.vars (.regk r1)) (vget st.vars (.regk r2)) = true) :
    executeRType ctx st "beq" r1 r2 (.str s)
      = setCurrentLine ctx st (.int (w.line - 1)) := by
  unfold executeRType
  simp only [reduceIte, hfind, heq, if_true]
  rw [if_neg (by decide : ¬(("beq" : String) = "add")),
    if_neg (by decide : ¬(("beq" : String) = "nor"))]

/-- beq with a symbolic target found in the label table and unequal
register values leaves the state alone. -/
theorem executeRType_beq_str_ne (ctx : Ctx) (st : RS) (r1 r2 : JNum) (s : String)
    (w : LWord) (hfind : findLabel ctx.labels s = some w)
    (heq : jsStrictEq (vget st.vars (.regk r1)) (vget st.vars (.regk r2)) = false) :
    executeRType ctx st "beq" r1 r2 (.str s) = st := by
  unfold executeRType
  simp only [reduceIte, hfind, heq, Bool.false_eq_true, if_false]
  rw [if_neg (by decide : ¬(("beq" : String) = "add")),
    if_neg (by decide : ¬(("beq" : String) = "nor"))]

/-- A line lookup that succeeds pins the index inside the program. -/
theorem getLineOpt_some_bounds (lines : List String) (n : Int) (l : String)
    (h : getLineOpt lines (.int n) = some l) : 0 ≤ n ∧ n < (lines.length : Int) := by
  by_cases hb : (0 ≤ n ∧ n < (lines.length : Int))
  · exact hb
  · rw [show getLineOpt lines (.int n)
        = (if 0 ≤ n ∧ n < (lines.length : Int) then lines.get? n.toNat else none)
        from rfl, if_neg hb] at h
    cases h

/-- updateCurrentLine advances an in-bounds counter by one. -/
theorem updateCurrentLine_step (ctx : Ctx) (st : RS) (n : Int)
    (hc : st.currentLine = .int n) (hlt : n < (ctx.lines.length : Int) - 1) :
    updateCurrentLine ctx st false = (setCurrentLine ctx st (.int (n + 1)), false) := by
  unfold updateCurrentLine
  simp only [Bool.false_eq_true, if_false, hc]
  have : jlt (.int n) ((ctx.lines.length : Int) - 1) = true := by simp [jlt]; omega
  simp only [this, if_true]
  rfl

/-- findNextStatement stops the search immediately on a non-empty line
with no breakpoint on it. -/
theorem findNext_at_nonempty (ctx : Ctx) (st : RS) (n : Int) (lineN : String)
    (hc : st.currentLine = .int n) (hbps : st.bps = [])
    (hget : getLineOpt ctx.lines (.int n) = some lineN) (hne : lineN.length > 0) :
    findNextStatement ctx st false none = (setCurrentLine ctx st (.int n), false) := by
  have hb := getLineOpt_some_bounds ctx.lines n lineN hget
  unfold findNextStatement
  rw [hc]
  unfold findNextGo
  have hcond : (if (false : Bool) = true then 0 ≤ n else n < (ctx.lines.length : Int))
      = (n < (ctx.lines.length : Int)) := by simp
  simp only [Bool.false_eq_true, if_false, hbps, List.find?_nil, hget, hne, if_pos hb.2]
  simp only [hne, if_true]
  rfl

/-- executeLine on a line matching the R shape, with no instruction
breakpoints and a line text that triggers none of the trailing scans,
reduces to the R dispatcher's result and does not stop. -/
theorem executeLine_R (ctx : Ctx) (st : RS) (ln : Int) (line0 : String) (rc : RCaps)
    (hinstr : ctx.instrBps = [])
    (hget : getLineOpt ctx.lines (.int ln) = some line0)
    (hmatch : matchR line0 = some rc)
    (hdollar : scanDollarGo line0.length line0.data = [])
    (hexc1 : firstIdxSub line0.data ("exception(".data) = none)
    (hexc2 : strContainsStr line0 "exception" = false)
    (hstacks : ¬(line0 = "## Stacks")) :
    ∃ ins, executeLine ctx st (.int ln) false
      = (executeRType ctx
          (emit { st with instruction := ins }
            (.output ("this R cmd: " ++ rc.label ++ " " ++ rc.op ++ " "
              ++ jnumToString (regIdx rc.g3) ++ " " ++ jnumToString (regIdx rc.g4) ++ " "
              ++ joffToString (toOffset rc.g5) ++ " " ++ rc.comment)))
          rc.op (regIdx rc.g3) (regIdx rc.g4) (toOffset rc.g5), false) := by
  obtain ⟨ins, hloop⟩ := instrLoop_no_bps ctx st (.int ln) false hinstr
  refine ⟨ins, ?_⟩
  unfold executeLine
  rw [hloop]
  simp only [Bool.false_eq_true, if_false, hget, Option.getD_some, hmatch]
  simp only [dollarScan, hdollar, processTokens]
  simp only [exceptionScan, hexc1]
  simp only [hexc2, Bool.false_eq_true, false_and, if_false]
  simp only [hstacks, if_false]

set_option maxHeartbeats 1000000 in
/-- C8.  Branch targeting under the continue loop: on a line decoding as
beq (no breakpoints of either kind, no scan triggers in the line text,
counter not crashed), if the two source registers hold strictly equal
values and the target operand resolves to line T (either a numeric
operand T or a label declared at line T) with line T inside the program
and non-empty, then the loop iteration does not break and leaves the
counter on T, so the next line executed is T; if the register values
differ, control falls through: the iteration leaves the counter on the
next line ln + 1 (when it is inside the program and non-empty). -/
theorem c8_beq_targeting
    (ctx : Ctx) (st : RS) (ln : Int) (line0 : String) (rc : RCaps) (T : Int)
    (hcl : st.currentLine = .int ln)
    (hcr : st.crashed = false)
    (hbps : st.bps = [])
    (hinstr : ctx.instrBps = [])
    (hget : getLineOpt ctx.lines (.int ln) = some line0)
    (hmatch : matchR line0 = some rc)
    (hop : rc.op = "beq")
    (hdollar : scanDollarGo line0.length line0.data = [])
    (hexc1 : firstIdxSub line0.data ("exception(".data) = none)
    (hexc2 : strContainsStr line0 "exception" = false)
    (hstacks : ¬(line0 = "## Stacks"))
    (hres : toOffset rc.g5 = .num (.int T)
            ∨ ∃ s w, toOffset rc.g5 = .str s ∧ findLabel ctx.labels s = some w
                ∧ w.line = T) :
    (jsStrictEq (vget st.vars (.regk (regIdx rc.g3)))
        (vget st.vars (.regk (regIdx rc.g4))) = true →
      ∀ lineT, T < (ctx.lines.length : Int) →
        getLineOpt ctx.lines (.int T) = some lineT → lineT.length > 0 →
        (continueIter ctx st false).2 = false
        ∧ (continueIter ctx st false).1.currentLine = .int T)
    ∧ (jsStrictEq (vget st.vars (.regk (regIdx rc.g3)))
        (vget st.vars (.regk (regIdx rc.g4))) = false →
      ∀ lineN, ln < (ctx.lines.length : Int) - 1 →
        getLineOpt ctx.lines (.int (ln + 1)) = some lineN → lineN.length > 0 →
        (continueIter ctx st false).2 = false
        ∧ (continueIter ctx st false).1.currentLine = .int (ln + 1)) := by
  obtain ⟨ins, hEL⟩ :=
    executeLine_R ctx st ln line0 rc hinstr hget hmatch hdollar hexc1 hexc2 hstacks
  revert hEL
  generalize hE : (emit { st with instruction := ins }
      (.output ("this R cmd: " ++ rc.label ++ " " ++ rc.op ++ " "
        ++ jnumToString (regIdx rc.g3) ++ " " ++ jnumToString (regIdx rc.g4) ++ " "
        ++ joffToString (toOffset rc.g5) ++ " " ++ rc.comment))) = E
  intro hEL
  have hEv : E.vars = st.vars := by rw [← hE]; rfl
  have hEcr : E.crashed = st.crashed := by rw [← hE]; rfl
  have hEbps : E.bps = st.bps := by rw [← hE]; rfl
  constructor
  · intro heq lineT hTlen hgetT hneT
    have hX : executeRType ctx E rc.op (regIdx rc.g3) (regIdx rc.g4) (toOffset rc.g5)
        = setCurrentLine ctx E (.int (T - 1)) := by
      rcases hres with hnum | ⟨s, w, hs, hw, hwl⟩
      · rw [hop, hnum]
        exact executeRType_beq_num ctx E _ _ T (by rw [hEv]; exact heq)
      · rw [hop, hs]
        have hr := executeRType_beq_str ctx E (regIdx rc.g3) (regIdx rc.g4) s w hw
          (by rw [hEv]; exact heq)
        rw [hwl] at hr
        exact hr
    have hcrX : (setCurrentLine ctx E (.int (T - 1))).crashed = false := by
      simp only [setCurrentLine]
      rw [hEcr, hcr]
    have hclX : (setCurrentLine ctx E (.int (T - 1))).currentLine = .int (T - 1) := by
      simp only [setCurrentLine]
    have hup := updateCurrentLine_step ctx (setCurrentLine ctx E (.int (T - 1)))
      (T - 1) hclX (by omega)
    have hT' : (T : Int) - 1 + 1 = T := by omega
    rw [hT'] at hup
    have hY2 : (setCurrentLine ctx (setCurrentLine ctx E (.int (T - 1)))
        (.int T)).currentLine = .int T := by simp only [setCurrentLine]
    have hY2bps : (setCurrentLine ctx (setCurrentLine ctx E (.int (T - 1)))
        (.int T)).bps = [] := by
      simp only [setCurrentLine]
      rw [hEbps, hbps]
    have hfn := findNext_at_nonempty ctx
      (setCurrentLine ctx (setCurrentLine ctx E (.int (T - 1))) (.int T))
      T lineT hY2 hY2bps hgetT hneT
    have hcrY : (setCurrentLine ctx (setCurrentLine ctx E (.int (T - 1)))
        (.int T)).crashed = false := by
      simp only [setCurrentLine]
      rw [hEcr, hcr]
    have hcrZ : (setCurrentLine ctx (setCurrentLine ctx
        (setCurrentLine ctx E (.int (T - 1))) (.int T)) (.int T)).crashed = false := by
      simp only [setCurrentLine]
      rw [hEcr, hcr]
    unfold continueIter
    rw [hcl, hEL, hX]
    simp only [hcrX, Bool.false_eq_true, false_or, if_false]
    rw [hup]
    simp only [Bool.false_eq_true, if_false]
    rw [hfn]
    simp only [hcrZ, Bool.false_eq_true, false_or, if_false]
    exact ⟨trivial, by simp only [setCurrentLine]⟩
  · intro heq lineN hlnlt hgetN hneN
    have hX : executeRType ctx E rc.op (regIdx rc.g3) (regIdx rc.g4) (toOffset rc.g5)
        = E := by
      rcases hres with hnum | ⟨s, w, hs, hw, _⟩
      · rw [hop, hnum]
        exact executeRType_beq_num_ne ctx E _ _ T (by rw [hEv]; exact heq)
      · rw [hop, hs]
        exact executeRType_beq_str_ne ctx E _ _ s w hw (by rw [hEv]; exact heq)
    have hEcl : E.currentLine = .int ln := by
      rw [← hE]
      show st.currentLine = JNum.int ln
      exact hcl
    have hup := updateCurrentLine_step ctx E ln hEcl hlnlt
    have hY2 : (setCurrentLine ctx E (.int (ln + 1))).currentLine = .int (ln + 1) := by
      simp only [setCurrentLine]
    have hY2bps : (setCurrentLine ctx E (.int (ln + 1))).bps = [] := by
      simp only [setCurrentLine]
      rw [hEbps, hbps]
    have hfn := findNext_at_nonempty ctx (setCurrentLine ctx E (.int (ln + 1)))
      (ln + 1) lineN hY2 hY2bps hgetN hneN
    have hcrE : E.crashed = false := by rw [hEcr, hcr]
    have hcrZ : (setCurrentLine ctx (setCurrentLine ctx E (.int (ln + 1)))
        (.int (ln + 1))).crashed = false := by
      simp only [setCurrentLine]
      rw [hEcr, hcr]
    unfold continueIter
    rw [hcl, hEL, hX]
    simp only [hcrE, Bool.false_eq_true, false_or, if_false]
    rw [hup]
    simp only [Bool.false_eq_true, if_false]
    rw [hfn]
    simp only [hcrZ, Bool.false_eq_true, false_or, if_false]
    exact ⟨trivial, by simp only [setCurrentLine]⟩

/-- Program of the C8 witness: a beq to line 2 with two noop lines. -/
def c8Lines : List String := ["x beq 0 0 2", " noop", " noop"]

/-- C8 witness: on the concrete program the beq on line 0 with equal
registers (both 0) leaves the continue iteration running with the
counter on the target line 2. -/
theorem c8_beq_targeting_witness :
    (continueIter (plainCtx c8Lines) (loadedRS c8Lines []) false).2 = false
    ∧ (continueIter (plainCtx c8Lines) (loadedRS c8Lines []) false).1.currentLine
        = .int 2 :=
  (c8_beq_targeting (plainCtx c8Lines) (loadedRS c8Lines []) 0 "x beq 0 0 2"
      ⟨"x", "beq", "0", "0", "2", ""⟩ 2 (by decide) (by decide) (by decide) (by decide)
      (by decide) (by decide) (by decide) (by decide) (by decide) (by decide)
      (by decide) (Or.inl (by decide))).1 (by decide) " noop" (by decide) (by decide)
    (by decide)

/-- The labels that the scan of initializeContents records for a list of
indexed lines. -/
def sepLabels : List (Nat × String) → List LWord
  | [] => []
  | (l, s) :: rest =>
      (if headNotTab s then
        match matchSep s with
        | some n => [⟨n, (l : Int)⟩]
        | none => []
       else []) ++ sepLabels rest

/-- The labels collected after scanning the first k lines. -/
def labelsUpTo (lines : List String) (k : Nat) : List LWord :=
  sepLabels (lines.enum.take k)

/-- Is the .fill directive of a line (when there is one) resolvable
against the labels collected up to and including the line itself?  This
is the condition under which the one-pass loader accepts the line. -/
def fillResolvableB (lines : List String) (cur : Nat × String) : Bool :=
  if headNotTab cur.2 then
    match matchFill cur.2 with
    | some fc =>
        match toOffset fc.value with
        | .str s => (findLabel (labelsUpTo lines (cur.1 + 1)) s).isSome
        | .num _ => true
    | none => true
  else true

/-- findSome? over a list of failures is none. -/
theorem findSome?_eq_none_of {α β : Type} (f : α → Option β) :
    ∀ (xs : List α), (∀ y ∈ xs, f y = none) → List.findSome? f xs = none
  | [], _ => rfl
  | z :: zs, h => by
      rw [List.findSome?_cons, h z (List.mem_cons_self z zs)]
      exact findSome?_eq_none_of f zs (fun y hy => h y (List.mem_cons_of_mem z hy))

/-- findSome? reduces to the head when the tail is all failures. -/
theorem findSome?_head_of_tail_none {α β : Type} (f : α → Option β) (x : α)
    (xs : List α) (h : ∀ y ∈ xs, f y = none) :
    List.findSome? f (x :: xs) = f x := by
  rw [List.findSome?_cons]
  cases hf : f x with
  | some b => rfl
  | none => exact findSome?_eq_none_of f xs h

/-- The head of a dropWhile result falsifies the predicate. -/
theorem dropWhile_head_not (p : Char → Bool) :
    ∀ (cs : List Char) (c : Char) (rest : List Char),
      cs.dropWhile p = c :: rest → p c = false
  | [], c, rest, h => by cases h
  | x :: xs, c, rest, h => by
      by_cases hx : p x = true
      · rw [List.dropWhile_cons_of_pos hx] at h
        exact dropWhile_head_not p xs c rest h
      · rw [List.dropWhile_cons_of_neg hx] at h
        cases h
        simpa using hx

/-- A whitespace-plus atom fails on a non-whitespace head. -/
theorem matchPats_wsPlus_head (ps : List Pat) (c : Char) (cs : List Char)
    (hc : isJsWs c = false) : matchPats (.wsPlus :: ps) (c :: cs) = none := by
  unfold matchPats wsCands
  rw [List.takeWhile_cons_of_neg (by simp [hc])]
  rfl

/-- A whitespace-plus atom fails on an empty rest. -/
theorem matchPats_wsPlus_nil (ps : List Pat) : matchPats (.wsPlus :: ps) [] = none := rfl

/-- A single-whitespace atom fails on a non-whitespace head. -/
theorem matchPats_wsOne_head (ps : List Pat) (c : Char) (cs : List Char)
    (hc : isJsWs c = false) : matchPats (.wsOne :: ps) (c :: cs) = none := by
  unfold matchPats
  simp [hc]

/-- The greedy token-star atom, when followed by a whitespace atom,
always captures the maximal run of non-whitespace characters: every
shorter split leaves a non-whitespace character where the whitespace
atom must match. -/
theorem matchPats_tokStar (ps : List Pat) (cs : List Char)
    (hps : (∃ ps', ps = .wsPlus :: ps') ∨ (∃ ps', ps = .wsOne :: ps')) :
    matchPats (.tokStar :: ps) cs
      = (matchPats ps (cs.drop (cs.takeWhile (fun c => !isJsWs c)).length)).map
          (fun caps => String.mk (cs.takeWhile (fun c => !isJsWs c)) :: caps) := by
  have hcands : tokCands cs
      = ((cs.takeWhile (fun c => !isJsWs c)),
          cs.drop (cs.takeWhile (fun c => !isJsWs c)).length)
        :: ((List.range (cs.takeWhile (fun c => !isJsWs c)).length).reverse.map
            (fun k => ((cs.takeWhile (fun c => !isJsWs c)).take k,
              (cs.takeWhile (fun c => !isJsWs c)).drop k
                ++ cs.drop (cs.takeWhile (fun c => !isJsWs c)).length))) := by
    unfold tokCands
    simp only [List.range_succ, List.reverse_append, List.reverse_singleton,
      List.singleton_append, List.map_cons, List.take_length, List.drop_length, List.nil_append]
  show (tokCands cs).findSome? _ = _
  rw [hcands]
  rw [findSome?_head_of_tail_none]
  intro pr hpr
  obtain ⟨k, hk, hpr⟩ := List.mem_map.mp hpr
  have hklt : k < (cs.takeWhile (fun c => !isJsWs c)).length := by
    have := List.mem_reverse.mp hk
    exact List.mem_range.mp this
  have hdropcons : (cs.takeWhile (fun c => !isJsWs c)).drop k
      = (cs.takeWhile (fun c => !isJsWs c))[k] :: (cs.takeWhile (fun c => !isJsWs c)).drop (k + 1) :=
    List.drop_eq_getElem_cons hklt
  have hmem : (cs.takeWhile (fun c => !isJsWs c))[k] ∈ cs.takeWhile (fun c => !isJsWs c) :=
    List.getElem_mem hklt
  have hnotws : isJsWs ((cs.takeWhile (fun c => !isJsWs c))[k]) = false := by
    have := List.mem_takeWhile_imp hmem
    simpa using this
  rw [← hpr]
  have hnone : matchPats ps
      ((cs.takeWhile (fun c => !isJsWs c)).drop k
        ++ cs.drop (cs.takeWhile (fun c => !isJsWs c)).length) = none := by
    rw [hdropcons, List.cons_append]
    rcases hps with ⟨ps', hps'⟩ | ⟨ps', hps'⟩
    · rw [hps']; exact matchPats_wsPlus_head ps' _ _ hnotws
    · rw [hps']; exact matchPats_wsOne_head ps' _ _ hnotws
  simp [hnone]

/-- A successful whitespace-plus match starts with a whitespace character. -/
theorem wsPlus_success_head (ps : List Pat) (cs : List Char) (caps : List String)
    (h : matchPats (.wsPlus :: ps) cs = some caps) :
    ∃ c rest, cs = c :: rest ∧ isJsWs c = true := by
  cases cs with
  | nil => rw [matchPats_wsPlus_nil] at h; cases h
  | cons c rest =>
      cases hc : isJsWs c with
      | true => exact ⟨c, rest, rfl, hc⟩
      | false => rw [matchPats_wsPlus_head ps c rest hc] at h; cases h

/-- A line that matches the .fill regex also matches the label-separator
regex, and the label the two extract is the same: both anchor a greedy
non-whitespace run at the start, followed by whitespace. -/
theorem matchFill_label (s : String) (fc : FillCaps)
    (h : matchFill s = some fc) : matchSep s = some fc.label := by
  unfold matchFill at h
  have hfe : fillPats = Pat.tokStar
      :: [Pat.wsPlus, .litAlt [".fill"], .wsPlus, .tokPlus, .optWs, .dotStarOpt] := rfl
  have hred := matchPats_tokStar
    [Pat.wsPlus, .litAlt [".fill"], .wsPlus, .tokPlus, .optWs, .dotStarOpt]
    s.data (Or.inl ⟨_, rfl⟩)
  rw [hfe, hred] at h
  cases htail : matchPats
      [Pat.wsPlus, .litAlt [".fill"], .wsPlus, .tokPlus, .optWs, .dotStarOpt]
      (s.data.drop (s.data.takeWhile (fun c => !isJsWs c)).length) with
  | none => rw [htail] at h; simp at h
  | some caps =>
      rw [htail] at h
      simp only [Option.map_some'] at h
      obtain ⟨c0, rest0, hrest, hws⟩ := wsPlus_success_head _ _ caps htail
      unfold matchSep
      have hred2 := matchPats_tokStar [Pat.wsOne] s.data (Or.inr ⟨_, rfl⟩)
      rw [hred2, hrest]
      have hone : matchPats [Pat.wsOne] (c0 :: rest0) = some [] := by
        show (if isJsWs c0 then matchPats [] rest0 else none) = some []
        rw [hws]
        rfl
      rw [hone]
      match caps with
      | [] => simp at h
      | [_] => simp at h
      | [_, _] => simp at h
      | b :: c1 :: d :: _ :: _ :: _ => simp at h
      | [b, c1, d] =>
          have h' : some (⟨String.mk (s.data.takeWhile (fun c => !isJsWs c)), c1, d⟩
              : FillCaps) = some fc := h
          injection h' with h2
          rw [← h2]
          rfl

/-- sepLabels distributes over append. -/
theorem sepLabels_append (xs ys : List (Nat × String)) :
    sepLabels (xs ++ ys) = sepLabels xs ++ sepLabels ys := by
  induction xs with
  | nil => rfl
  | cons p rest ih =>
      obtain ⟨l, s⟩ := p
      simp only [List.cons_append, sepLabels, List.append_eq, ih, List.append_assoc]

/-- sepLabels on a single line. -/
theorem sepLabels_single (l : Nat) (s : String) :
    sepLabels [(l, s)]
      = if headNotTab s then
          (match matchSep s with
           | some n => [(⟨n, (l : Int)⟩ : LWord)]
           | none => []) else [] := by
  show (if headNotTab s then _ else []) ++ sepLabels [] = _
  rw [show sepLabels [] = ([] : List LWord) from rfl, List.append_nil]

/-- Label lookup succeeds on the left part of an append. -/
theorem findLabel_append_left {xs : List LWord} {n : String} {w : LWord}
    (ys : List LWord) (h : findLabel xs n = some w) :
    findLabel (xs ++ ys) n = some w := by
  induction xs with
  | nil => cases h
  | cons x rest ih =>
      unfold findLabel at h ⊢
      by_cases hq : x.name = n
      · rw [List.find?_cons_of_pos _ (by simp [hq])] at h
        rw [List.cons_append, List.find?_cons_of_pos _ (by simp [hq])]
        exact h
      · rw [List.find?_cons_of_neg _ (by simp [hq])] at h
        rw [List.cons_append, List.find?_cons_of_neg _ (by simp [hq])]
        exact ih h

/-- Label lookup moves to the right part of an append when the left part
has no hit. -/
theorem findLabel_append_not_found {xs : List LWord} {n : String}
    (ys : List LWord) (h : findLabel xs n = none) :
    findLabel (xs ++ ys) n = findLabel ys n := by
  induction xs with
  | nil => rfl
  | cons x rest ih =>
      unfold findLabel at h ⊢
      by_cases hq : x.name = n
      · rw [List.find?_cons_of_pos _ (by simp [hq])] at h
        cases h
      · rw [List.find?_cons_of_neg _ (by simp [hq])] at h
        rw [List.cons_append, List.find?_cons_of_neg _ (by simp [hq])]
        exact ih h

/-- Label lookup fails when no entry carries the name. -/
theorem findLabel_not_mem {xs : List LWord} {n : String}
    (h : ∀ w ∈ xs, w.name ≠ n) : findLabel xs n = none := by
  unfold findLabel
  rw [List.find?_eq_none]
  intro w hw
  simp [h w hw]

/-- Label lookup on a matching singleton. -/
theorem findLabel_single (n : String) (l : Int) :
    findLabel [⟨n, l⟩] n = some ⟨n, l⟩ := by
  unfold findLabel
  rw [List.find?_cons_of_pos _ (by simp)]

/-- Reading the cell just written yields the written value. -/
theorem memRead_memWrite_same (m : MemArr) (i v : JNum) :
    memRead (memWrite m i v) i = some v := by
  unfold memRead memWrite
  rw [List.find?_cons_of_pos _ (by simp)]

/-- Writing one cell leaves every other cell unchanged. -/
theorem memRead_memWrite_ne (m : MemArr) (i v j : JNum) (h : ¬(j = i)) :
    memRead (memWrite m i v) j = memRead m j := by
  unfold memRead memWrite
  rw [List.find?_cons_of_neg _ (by simp; intro hji; exact h hji.symm)]
  have hfil : List.find? (fun p => p.1 = j) (m.writes.filter (fun p => ¬(p.1 = i)))
      = List.find? (fun p => p.1 = j) m.writes := by
    induction m.writes with
    | nil => rfl
    | cons q rest ih =>
        by_cases hq : q.1 = j
        · have hqi : ¬(q.1 = i) := by rw [hq]; exact h
          rw [List.filter_cons_of_pos (by simp [hqi]),
            List.find?_cons_of_pos _ (by simp [hq]),
            List.find?_cons_of_pos _ (by simp [hq])]
        · by_cases hqi : q.1 = i
          · rw [List.filter_cons_of_neg (by simp [hqi]),
              List.find?_cons_of_neg _ (by simp [hq])]
            exact ih
          · rw [List.filter_cons_of_pos (by simp [hqi]),
              List.find?_cons_of_neg _ (by simp [hq]),
              List.find?_cons_of_neg _ (by simp [hq])]
            exact ih
  rw [hfil]

/-- Taking one element past a decomposition point. -/
theorem take_append_len {α : Type} :
    ∀ (l1 : List α) (a : α) (l2 : List α),
      (l1 ++ a :: l2).take (l1.length + 1) = l1 ++ [a]
  | [], _, _ => rfl
  | x :: t, a, l2 => by
      show List.take (t.length + 1 + 1) (x :: (t ++ a :: l2)) = x :: (t ++ [a])
      rw [List.take_succ_cons, take_append_len t a l2]

/-- The index stored at a decomposition point of an enumeration is the
length of the prefix. -/
theorem enum_decomp_fst {lines : List String} {done rest : List (Nat × String)}
    {cur : Nat × String} (h : lines.enum = done ++ cur :: rest) :
    cur.1 = done.length := by
  have hm := congrArg (fun t => (List.map Prod.fst t).get? done.length) h
  simp only at hm
  rw [List.enum_map_fst] at hm
  have hlen : done.length < lines.length := by
    have := congrArg List.length h
    rw [List.enum_length] at this
    simp [this]
  rw [List.get?_range hlen, List.map_append, List.map_cons] at hm
  rw [List.get?_append_right (by simp)] at hm
  simp at hm
  exact hm.symm

/-- The indices of an enumeration are pairwise distinct. -/
theorem enum_fst_nodup (lines : List String) :
    (lines.enum.map Prod.fst).Nodup := by
  rw [List.enum_map_fst]
  exact List.nodup_range _

/-- A line with no .fill directive (tab-led, or not matching the regex)
steps without error, without touching memory, extending the labels with
whatever the separator regex extracts. -/
theorem loadStep_no_fill (l : Nat) (s : String) (labels : List LWord) (mem : MemArr)
    (h : headNotTab s = false ∨ matchFill s = none) :
    loadStep l s labels mem = (labels ++ sepLabels [(l, s)], mem, none) := by
  unfold loadStep
  rw [sepLabels_single]
  cases ht : headNotTab s with
  | false => simp
  | true =>
      have hf : matchFill s = none := by
        rcases h with h1 | h1
        · rw [ht] at h1; cases h1
        · exact h1
      cases hsep : matchSep s with
      | some n => simp [hf, hsep]
      | none => simp [hf, hsep]

/-- A line with a .fill directive steps as the source does: the label of
the line is recorded first, the directive's own label is then looked up
in the extended table (and found), and the value is resolved either as a
literal or through a second label lookup, whose failure is the error. -/
theorem loadStep_fill (l : Nat) (s : String) (labels : List LWord) (mem : MemArr)
    (fc : FillCaps) (ht : headNotTab s = true) (hf : matchFill s = some fc) :
    ∃ own, findLabel (labels ++ [⟨fc.label, (l : Int)⟩]) fc.label = some own ∧
      loadStep l s labels mem
        = (match toOffset fc.value with
           | .num j => (labels ++ [⟨fc.label, (l : Int)⟩],
               memWrite mem (.int own.line) j, none)
           | .str s' =>
               match findLabel (labels ++ [⟨fc.label, (l : Int)⟩]) s' with
               | some ref => (labels ++ [⟨fc.label, (l : Int)⟩],
                   memWrite mem (.int own.line) (.int ref.line), none)
               | none => (labels ++ [⟨fc.label, (l : Int)⟩], mem, some s')) := by
  have hsep : matchSep s = some fc.label := matchFill_label s fc hf
  have hown : ∃ own, findLabel (labels ++ [⟨fc.label, (l : Int)⟩]) fc.label = some own := by
    cases hfl : findLabel labels fc.label with
    | some w => exact ⟨w, findLabel_append_left _ hfl⟩
    | none =>
        refine ⟨⟨fc.label, (l : Int)⟩, ?_⟩
        rw [findLabel_append_not_found _ hfl]
        exact findLabel_single _ _
  obtain ⟨own, hownEq⟩ := hown
  refine ⟨own, hownEq, ?_⟩
  unfold loadStep
  rw [if_pos ht]
  simp only [hsep, hf]
  rw [hownEq]
  cases hto : toOffset fc.value with
  | num j => simp
  | str s' =>
      cases hfl2 : findLabel (labels ++ [⟨fc.label, (l : Int)⟩]) s' with
      | some ref => simp [hfl2]
      | none => simp [hfl2]

/-- The scan unfolds one line when the step succeeds. -/
theorem loadLinesGo_cons (l : Nat) (s : String) (rest : List (Nat × String))
    (labels labels1 : List LWord) (mem mem1 : MemArr)
    (h : loadStep l s labels mem = (labels1, mem1, none)) :
    loadLinesGo ((l, s) :: rest) labels mem = loadLinesGo rest labels1 mem1 := by
  conv_lhs => unfold loadLinesGo
  rw [h]

/-- The scan aborts when the step errs. -/
theorem loadLinesGo_cons_err (l : Nat) (s : String) (rest : List (Nat × String))
    (labels labels1 : List LWord) (mem mem1 : MemArr) (n : String)
    (h : loadStep l s labels mem = (labels1, mem1, some n)) :
    loadLinesGo ((l, s) :: rest) labels mem = (labels1, mem1, some n) := by
  unfold loadLinesGo
  rw [h]

/-- The scan of initializeContents, on a program whose label names are
distinct and whose every .fill is resolvable when it is reached: no line
errs, the cell at each .fill line receives the literal value or the line
number of the referenced label, and every other cell keeps its previous
value. -/
theorem loadGo_spec (lines : List String)
    (hnodup : ((sepLabels lines.enum).map (fun w => w.name)).Nodup)
    (hres : ∀ cur ∈ lines.enum, fillResolvableB lines cur = true) :
    ∀ (pairs done : List (Nat × String)) (mem0 : MemArr),
      lines.enum = done ++ pairs →
      (loadLinesGo pairs (sepLabels done) mem0).2.2 = none
      ∧ (∀ cur ∈ pairs, headNotTab cur.2 = true → ∀ fc, matchFill cur.2 = some fc →
          (∀ j, toOffset fc.value = JOffset.num j →
            memRead (loadLinesGo pairs (sepLabels done) mem0).2.1
              (.int (cur.1 : Int)) = some j)
          ∧ (∀ s, toOffset fc.value = JOffset.str s →
              ∃ w, findLabel (sepLabels lines.enum) s = some w ∧
                memRead (loadLinesGo pairs (sepLabels done) mem0).2.1
                  (.int (cur.1 : Int)) = some (.int w.line)))
      ∧ (∀ i : JNum, (∀ cur ∈ pairs, ¬(JNum.int (cur.1 : Int) = i)) →
          memRead (loadLinesGo pairs (sepLabels done) mem0).2.1 i = memRead mem0 i) := by
  intro pairs
  induction pairs with
  | nil =>
      intro done mem0 hdec
      refine ⟨rfl, ?_, ?_⟩
      · intro cur hcur
        cases hcur
      · intro i _
        rfl
  | cons cur rest ih =>
      obtain ⟨cl, cs⟩ := cur
      intro done mem0 hdec
      have hdec' : lines.enum = (done ++ [(cl, cs)]) ++ rest := by
        rw [hdec, List.append_assoc]
        rfl
      have hcl : cl = done.length := enum_decomp_fst hdec
      have hfstno : ∀ c ∈ rest, ¬(c.1 = cl) := by
        have hnf := enum_fst_nodup lines
        rw [hdec] at hnf
        simp only [List.map_append, List.map_cons] at hnf
        have h2 := (List.nodup_append.mp hnf).2.1
        have h3 := (List.nodup_cons.mp h2).1
        intro c hc hceq
        exact h3 (hceq ▸ List.mem_map_of_mem Prod.fst hc)
      have hmemcur : (cl, cs) ∈ lines.enum := by
        rw [hdec]
        exact List.mem_append_right _ (List.mem_cons_self _ _)
      have hsl : sepLabels lines.enum
          = sepLabels done ++ (sepLabels [(cl, cs)] ++ sepLabels rest) := by
        rw [hdec', sepLabels_append, sepLabels_append, List.append_assoc]
      by_cases ht : headNotTab cs = true
      · cases hf : matchFill cs with
        | none =>
            have hstep := loadStep_no_fill cl cs (sepLabels done) mem0 (Or.inr hf)
            rw [show sepLabels done ++ sepLabels [(cl, cs)]
                = sepLabels (done ++ [(cl, cs)]) from (sepLabels_append _ _).symm] at hstep
            have hgo := loadLinesGo_cons cl cs rest (sepLabels done)
              (sepLabels (done ++ [(cl, cs)])) mem0 mem0 hstep
            rw [hgo]
            obtain ⟨ih1, ih2, ih3⟩ := ih (done ++ [(cl, cs)]) mem0 hdec'
            refine ⟨ih1, ?_, ?_⟩
            · intro cur' hcur' ht2 fc2 hf2
              rcases List.mem_cons.mp hcur' with hceq | hmem
              · subst hceq
                have : matchFill cs = some fc2 := hf2
                rw [hf] at this
                cases this
              · exact ih2 cur' hmem ht2 fc2 hf2
            · intro i hi
              exact ih3 i (fun c hc => hi c (List.mem_cons_of_mem _ hc))
        | some fc =>
            have hslcur : sepLabels [(cl, cs)] = [⟨fc.label, (cl : Int)⟩] := by
              rw [sepLabels_single]
              simp [ht, matchFill_label cs fc hf]
            have hnotin : ∀ w ∈ sepLabels done, w.name ≠ fc.label := by
              have hn2 := hnodup
              rw [hsl, hslcur, List.map_append] at hn2
              have hd := (List.nodup_append.mp hn2).2.2
              intro w hw hne
              exact hd (a := fc.label) (hne ▸ List.mem_map_of_mem _ hw)
                (by rw [List.map_append]; exact List.mem_append_left _ (by simp))
            have hfl_done : findLabel (sepLabels done) fc.label = none :=
              findLabel_not_mem hnotin
            have hown_is : findLabel (sepLabels done ++ [⟨fc.label, (cl : Int)⟩]) fc.label
                = some ⟨fc.label, (cl : Int)⟩ := by
              rw [findLabel_append_not_found _ hfl_done]
              exact findLabel_single _ _
            obtain ⟨own, hownEq, hstepEq⟩ :=
              loadStep_fill cl cs (sepLabels done) mem0 fc ht hf
            have hown2 : own = ⟨fc.label, (cl : Int)⟩ :=
              Option.some_injective _ (hownEq.symm.trans hown_is)
            subst hown2
            have hlab1 : sepLabels done ++ [⟨fc.label, (cl : Int)⟩]
                = sepLabels (done ++ [(cl, cs)]) := by
              rw [sepLabels_append, hslcur]
            have hupto : labelsUpTo lines (cl + 1) = sepLabels (done ++ [(cl, cs)]) := by
              unfold labelsUpTo
              rw [hdec, hcl, take_append_len]
            have hglobal : sepLabels lines.enum
                = (sepLabels done ++ [⟨fc.label, (cl : Int)⟩]) ++ sepLabels rest := by
              rw [hsl, hslcur, List.append_assoc]
            cases hto : toOffset fc.value with
            | num j =>
                have hstep2 : loadStep cl cs (sepLabels done) mem0
                    = (sepLabels (done ++ [(cl, cs)]),
                        memWrite mem0 (.int (cl : Int)) j, none) := by
                  rw [hstepEq, hto, hlab1]
                have hgo := loadLinesGo_cons cl cs rest (sepLabels done)
                  (sepLabels (done ++ [(cl, cs)])) mem0
                  (memWrite mem0 (.int (cl : Int)) j) hstep2
                rw [hgo]
                obtain ⟨ih1, ih2, ih3⟩ := ih (done ++ [(cl, cs)])
                  (memWrite mem0 (.int (cl : Int)) j) hdec'
                have hne : ∀ c ∈ rest, ¬(JNum.int (c.1 : Int) = JNum.int (cl : Int)) := by
                  intro c hc heq
                  injection heq with h7
                  exact hfstno c hc (by omega)
                refine ⟨ih1, ?_, ?_⟩
                · intro cur' hcur' ht2 fc2 hf2
                  rcases List.mem_cons.mp hcur' with hceq | hmem
                  · subst hceq
                    have hfc2 : fc2 = fc := by
                      have h5 : matchFill cs = some fc2 := hf2
                      rw [hf] at h5
                      injection h5 with h6
                      exact h6.symm
                    subst hfc2
                    constructor
                    · intro j2 hj2
                      have hj : j2 = j := by
                        rw [hto] at hj2
                        injection hj2 with h6
                        exact h6.symm
                      subst hj
                      show memRead _ (JNum.int (cl : Int)) = some j2
                      rw [ih3 (JNum.int (cl : Int)) hne]
                      exact memRead_memWrite_same mem0 _ _
                    · intro s2 hs2
                      rw [hto] at hs2
                      cases hs2
                  · exact ih2 cur' hmem ht2 fc2 hf2
                · intro i hi
                  have hne0 : ¬(i = JNum.int (cl : Int)) := by
                    intro heq
                    exact hi (cl, cs) (List.mem_cons_self _ _) heq.symm
                  rw [ih3 i (fun c hc => hi c (List.mem_cons_of_mem _ hc))]
                  exact memRead_memWrite_ne mem0 (.int (cl : Int)) j i hne0
            | str s' =>
                have hresc := hres (cl, cs) hmemcur
                simp only [fillResolvableB, ht, if_true, hf, hto] at hresc
                rw [hupto, ← hlab1] at hresc
                obtain ⟨ref, href⟩ := Option.isSome_iff_exists.mp hresc
                have hstep2 : loadStep cl cs (sepLabels done) mem0
                    = (sepLabels (done ++ [(cl, cs)]),
                        memWrite mem0 (.int (cl : Int)) (.int ref.line), none) := by
                  have hstepEq2 := hstepEq
                  simp only [hto] at hstepEq2
                  rw [hstepEq2, href, hlab1]
                have hrefglobal : findLabel (sepLabels lines.enum) s' = some ref := by
                  rw [hglobal]
                  exact findLabel_append_left _ href
                have hgo := loadLinesGo_cons cl cs rest (sepLabels done)
                  (sepLabels (done ++ [(cl, cs)])) mem0
                  (memWrite mem0 (.int (cl : Int)) (.int ref.line)) hstep2
                rw [hgo]
                obtain ⟨ih1, ih2, ih3⟩ := ih (done ++ [(cl, cs)])
                  (memWrite mem0 (.int (cl : Int)) (.int ref.line)) hdec'
                have hne : ∀ c ∈ rest, ¬(JNum.int (c.1 : Int) = JNum.int (cl : Int)) := by
                  intro c hc heq
                  injection heq with h7
                  exact hfstno c hc (by omega)
                refine ⟨ih1, ?_, ?_⟩
                · intro cur' hcur' ht2 fc2 hf2
                  rcases List.mem_cons.mp hcur' with hceq | hmem
                  · subst hceq
                    have hfc2 : fc2 = fc := by
                      have h5 : matchFill cs = some fc2 := hf2
                      rw [hf] at h5
                      injection h5 with h6
                      exact h6.symm
                    subst hfc2
                    constructor
                    · intro j2 hj2
                      rw [hto] at hj2
                      cases hj2
                    · intro s2 hs2
                      have hs : s2 = s' := by
                        rw [hto] at hs2
                        injection hs2 with h6
                        exact h6.symm
                      subst hs
                      refine ⟨ref, hrefglobal, ?_⟩
                      show memRead _ (JNum.int (cl : Int)) = some (.int ref.line)
                      rw [ih3 (JNum.int (cl : Int)) hne]
                      exact memRead_memWrite_same mem0 _ _
                  · exact ih2 cur' hmem ht2 fc2 hf2
                · intro i hi
                  have hne0 : ¬(i = JNum.int (cl : Int)) := by
                    intro heq
                    exact hi (cl, cs) (List.mem_cons_self _ _) heq.symm
                  rw [ih3 i (fun c hc => hi c (List.mem_cons_of_mem _ hc))]
                  exact memRead_memWrite_ne mem0 (.int (cl : Int)) (.int ref.line) i hne0
      · have ht' : headNotTab cs = false := by
          revert ht
          cases headNotTab cs <;> simp
        have hstep := loadStep_no_fill cl cs (sepLabels done) mem0 (Or.inl ht')
        rw [show sepLabels done ++ sepLabels [(cl, cs)]
            = sepLabels (done ++ [(cl, cs)]) from (sepLabels_append _ _).symm] at hstep
        have hgo := loadLinesGo_cons cl cs rest (sepLabels done)
          (sepLabels (done ++ [(cl, cs)])) mem0 mem0 hstep
        rw [hgo]
        obtain ⟨ih1, ih2, ih3⟩ := ih (done ++ [(cl, cs)]) mem0 hdec'
        refine ⟨ih1, ?_, ?_⟩
        · intro cur' hcur' ht2 fc2 hf2
          rcases List.mem_cons.mp hcur' with hceq | hmem
          · subst hceq
            simp [ht'] at ht2
          · exact ih2 cur' hmem ht2 fc2 hf2
        · intro i hi
          exact ih3 i (fun c hc => hi c (List.mem_cons_of_mem _ hc))

/-- A line whose .fill (if any) is resolvable steps without error and
extends the label table by its own entry. -/
theorem loadStep_resolvable (lines : List String) (done rest : List (Nat × String))
    (cl : Nat) (cs : String) (mem0 : MemArr)
    (hdec : lines.enum = done ++ (cl, cs) :: rest)
    (hres1 : fillResolvableB lines (cl, cs) = true) :
    ∃ mem1, loadStep cl cs (sepLabels done) mem0
      = (sepLabels (done ++ [(cl, cs)]), mem1, none) := by
  have hcl : cl = done.length := enum_decomp_fst hdec
  have hupto : labelsUpTo lines (cl + 1) = sepLabels (done ++ [(cl, cs)]) := by
    unfold labelsUpTo
    rw [hdec, hcl, take_append_len]
  by_cases ht : headNotTab cs = true
  · cases hf : matchFill cs with
    | none =>
        refine ⟨mem0, ?_⟩
        rw [loadStep_no_fill cl cs (sepLabels done) mem0 (Or.inr hf), sepLabels_append]
    | some fc =>
        have hslcur : sepLabels [(cl, cs)] = [⟨fc.label, (cl : Int)⟩] := by
          rw [sepLabels_single]
          simp [ht, matchFill_label cs fc hf]
        have hlab1 : sepLabels done ++ [⟨fc.label, (cl : Int)⟩]
            = sepLabels (done ++ [(cl, cs)]) := by
          rw [sepLabels_append, hslcur]
        obtain ⟨own, hownEq, hstepEq⟩ :=
          loadStep_fill cl cs (sepLabels done) mem0 fc ht hf
        cases hto : toOffset fc.value with
        | num j =>
            refine ⟨memWrite mem0 (.int own.line) j, ?_⟩
            rw [hstepEq, hto, hlab1]
        | str s' =>
            have hresc := hres1
            simp only [fillResolvableB, ht, if_true, hf, hto] at hresc
            rw [hupto, ← hlab1] at hresc
            obtain ⟨ref, href⟩ := Option.isSome_iff_exists.mp hresc
            refine ⟨memWrite mem0 (.int own.line) (.int ref.line), ?_⟩
            have hstepEq2 := hstepEq
            simp only [hto] at hstepEq2
            rw [hstepEq2, href, hlab1]
  · have ht' : headNotTab cs = false := by
      revert ht
      cases headNotTab cs <;> simp
    refine ⟨mem0, ?_⟩
    rw [loadStep_no_fill cl cs (sepLabels done) mem0 (Or.inl ht'), sepLabels_append]

/-- If any line of the program carries an unresolvable .fill, the scan
aborts with some unresolved label name. -/
theorem loadGo_fail_spec (lines : List String) :
    ∀ (pairs done : List (Nat × String)) (mem0 : MemArr),
      lines.enum = done ++ pairs →
      (∃ cur ∈ pairs, fillResolvableB lines cur = false) →
      ∃ name, (loadLinesGo pairs (sepLabels done) mem0).2.2 = some name := by
  intro pairs
  induction pairs with
  | nil =>
      intro done mem0 _ hex
      obtain ⟨c0, hc0, _⟩ := hex
      cases hc0
  | cons cur rest ih =>
      obtain ⟨cl, cs⟩ := cur
      intro done mem0 hdec hex
      have hdec' : lines.enum = (done ++ [(cl, cs)]) ++ rest := by
        rw [hdec, List.append_assoc]
        rfl
      by_cases hcres : fillResolvableB lines (cl, cs) = true
      · obtain ⟨mem1, hstep⟩ := loadStep_resolvable lines done rest cl cs mem0 hdec hcres
        rw [loadLinesGo_cons cl cs rest (sepLabels done) _ mem0 mem1 hstep]
        apply ih (done ++ [(cl, cs)]) mem1 hdec'
        obtain ⟨c0, hc0, hval⟩ := hex
        rcases List.mem_cons.mp hc0 with hceq | hmem
        · rw [hceq, hcres] at hval
          cases hval
        · exact ⟨c0, hmem, hval⟩
      · have hcres' : fillResolvableB lines (cl, cs) = false := by
          revert hcres
          cases fillResolvableB lines (cl, cs) <;> simp
        have ht : headNotTab cs = true := by
          by_contra hcon
          have ht' : headNotTab cs = false := by
            revert hcon
            cases headNotTab cs <;> simp
          simp [fillResolvableB, ht'] at hcres'
        cases hf : matchFill cs with
        | none => simp [fillResolvableB, ht, hf] at hcres'
        | some fc =>
            cases hto : toOffset fc.value with
            | num j => simp [fillResolvableB, ht, hf, hto] at hcres'
            | str s' =>
                have hcl : cl = done.length := enum_decomp_fst hdec
                have hupto : labelsUpTo lines (cl + 1)
                    = sepLabels (done ++ [(cl, cs)]) := by
                  unfold labelsUpTo
                  rw [hdec, hcl, take_append_len]
                have hslcur : sepLabels [(cl, cs)] = [⟨fc.label, (cl : Int)⟩] := by
                  rw [sepLabels_single]
                  simp [ht, matchFill_label cs fc hf]
                have hlab1 : sepLabels done ++ [⟨fc.label, (cl : Int)⟩]
                    = sepLabels (done ++ [(cl, cs)]) := by
                  rw [sepLabels_append, hslcur]
                have hfind : findLabel (sepLabels done ++ [⟨fc.label, (cl : Int)⟩]) s'
                    = none := by
                  simp only [fillResolvableB, ht, if_true, hf, hto] at hcres'
                  rw [hupto, ← hlab1] at hcres'
                  cases hfl : findLabel (sepLabels done ++ [⟨fc.label, (cl : Int)⟩]) s' with
                  | none => rfl
                  | some w =>
                      rw [hfl] at hcres'
                      simp at hcres'
                obtain ⟨own, hownEq, hstepEq⟩ :=
                  loadStep_fill cl cs (sepLabels done) mem0 fc ht hf
                have hstepEq2 := hstepEq
                simp only [hto, hfind] at hstepEq2
                refine ⟨s', ?_⟩
                rw [loadLinesGo_cons_err cl cs rest (sepLabels done) _ mem0 _ s' hstepEq2]

/-- C1 (amended): the one-pass load succeeds exactly when every .fill
directive's symbolic value is resolvable against the labels declared up
to and including its own line (so forward references fail like
undeclared ones, against the claim's "earlier or later line").  On
success, for a program with pairwise distinct label names, the memory
cell at each directive's own line holds the integer literal or the
referenced label's line number; when some .fill is unresolvable in scan
order, the load aborts: ok is false and the instruction table stays
empty. -/
theorem c1_load_amended (lines : List String)
    (hnodup : ((sepLabels lines.enum).map (fun w => w.name)).Nodup) :
    ((∀ cur ∈ lines.enum, fillResolvableB lines cur = true) →
      (initializeContents lines).ok = true
      ∧ (initializeContents lines).failedLabel = none
      ∧ (∀ cur ∈ lines.enum, headNotTab cur.2 = true →
          ∀ fc, matchFill cur.2 = some fc →
            (∀ j, toOffset fc.value = JOffset.num j →
              memRead (initializeContents lines).mem (.int (cur.1 : Int)) = some j)
            ∧ (∀ s, toOffset fc.value = JOffset.str s →
                ∃ w, findLabel (sepLabels lines.enum) s = some w ∧
                  memRead (initializeContents lines).mem (.int (cur.1 : Int))
                    = some (.int w.line))))
    ∧ ((∃ cur ∈ lines.enum, fillResolvableB lines cur = false) →
        (initializeContents lines).ok = false
        ∧ (initializeContents lines).instrs = []) := by
  have hsep0 : sepLabels ([] : List (Nat × String)) = [] := rfl
  constructor
  · intro hres
    obtain ⟨h1, h2, h3⟩ := loadGo_spec lines hnodup hres lines.enum [] ⟨[]⟩ rfl
    rw [hsep0] at h1 h2
    rcases hgo2 : loadLinesGo lines.enum [] ⟨[]⟩ with ⟨labelsv, memv, errv⟩
    rw [hgo2] at h1 h2
    have herr : errv = none := h1
    subst herr
    rcases hbw : buildWordsGo lines 0 0 with ⟨st, en, is⟩
    have hini : initializeContents lines
        = ⟨true, none, labelsv, memv, st, en, is⟩ := by
      unfold initializeContents
      rw [hgo2, hbw]
    rw [hini]
    exact ⟨rfl, rfl, h2⟩
  · intro hex
    obtain ⟨name, herr⟩ := loadGo_fail_spec lines lines.enum [] ⟨[]⟩ rfl hex
    rw [hsep0] at herr
    rcases hgo2 : loadLinesGo lines.enum [] ⟨[]⟩ with ⟨labelsv, memv, errv⟩
    rw [hgo2] at herr
    have herr2 : errv = some name := herr
    subst herr2
    have hini : initializeContents lines
        = ⟨false, some name, labelsv, memv, [], [], []⟩ := by
      unfold initializeContents
      rw [hgo2]
    rw [hini]
    exact ⟨rfl, rfl⟩

/-- Witness for C1 on the two-line program with a backward .fill
reference: the hypotheses hold by computation and the load succeeds with
cell 0 holding the literal 5 and cell 1 holding line 0 of label a. -/
theorem c1_load_amended_witness :
    (((sepLabels c1wLines.enum).map (fun w => w.name)).Nodup
      ∧ (∀ cur ∈ c1wLines.enum, fillResolvableB c1wLines cur = true))
    ∧ ((initializeContents c1wLines).ok = true
        ∧ (initializeContents c1wLines).failedLabel = none) := by
  refine ⟨⟨by decide, by decide⟩, ?_⟩
  obtain ⟨hok, hfl, _⟩ := (c1_load_amended c1wLines (by decide)).1 (by decide)
  exact ⟨hok, hfl⟩
